import Mathlib

/-!
Verification of the rj JSON library (RFC 8259 parser, value model, accessors).

The Rust sources `src/parse.rs`, `src/value.rs` and `src/lib.rs` are shallowly
embedded below.  Rust string slices become `List Char` (the parser walks the
input character by character; its byte-offset arithmetic in `string` only
recomputes the remaining suffix of the character iterator, so the character
level view is faithful).  Rust `f64` values are modelled exactly: the number
scanner's buffer only ever produces decimal mantissa/exponent forms, and every
such form is an exact rational, represented here by the normalized fraction
type `Q`.  Fallible Rust code returns `PResult`, whose `fatal` constructor
models a Rust panic (a failing `unwrap`, an `unreachable!`, or an indexing
panic) and is kept distinct from the typed `Error` results.  The recursive
descent parser is embedded with an explicit fuel parameter that strictly
decreases at every mutual call; `parse` supplies `3 * length + 8` fuel, which
is more than the call depth the source can reach on its input, so `nofuel` is
an unreachable artifact of the embedding on every actual run.
-/

namespace RJ

/-- Exact rational number standing for a Rust `f64`: a normalized fraction
`num / den`.  `den = 0` never arises from `normQ` applied to a nonzero
denominator. -/
structure Q where
  num : Int
  den : Nat
deriving DecidableEq, Repr

/-- Normalize a fraction by dividing out the gcd. -/
def normQ (n : Int) (d : Nat) : Q :=
  let g := Int.gcd n (Int.ofNat d)
  if g = 0 then ⟨0, 0⟩ else ⟨n / Int.ofNat g, d / g⟩

/-- Multiplication of exact rationals (used for the source's `* -1.0`). -/
def mulQ (a b : Q) : Q := normQ (a.num * b.num) (a.den * b.den)

/-- Value of a `Q` as a Mathlib rational, to state numeric claims. -/
def qval (q : Q) : ℚ := (q.num : ℚ) / (q.den : ℚ)

/-- The error taxonomy of `src/parse.rs` (enum `Error`).  Payload strings are
kept as `List Char`, with the `format!` message text reproduced verbatim. -/
inductive Error where
  | UnexpectedToken : List Char → Error
  | MissingExpectedChar : Char → List Char → Error
  | UnterminatedString : Error
  | InvalidEscapeSequence : List Char → Error
  | InvalidUnicodeEscape : Error
  | InvalidNumberFormat : List Char → Error
  | TrailingCharacters : List Char → Error
deriving DecidableEq, Repr

/-- The `Value` model of `src/value.rs`: a closed tagged union with six
variants.  `IndexMap<String, Value>` is embedded as an insertion-ordered
association list. -/
inductive Value where
  | String : List Char → Value
  | Number : Q → Value
  | Boolean : Bool → Value
  | Null : Value
  | Object : List (List Char × Value) → Value
  | Array : List Value → Value
deriving Repr

instance : Inhabited Value := ⟨.Null⟩

/-- Outcome of running a fallible parser function.  `ok` and `err` mirror the
Rust `Result`; `fatal` models a Rust panic; `nofuel` is the out-of-fuel
artifact of the embedding. -/
inductive PResult (α : Type) where
  | ok : α → PResult α
  | err : Error → PResult α
  | fatal : PResult α
  | nofuel : PResult α
deriving Repr

/-- Whitespace test of `parse.rs::is_whitespace`: exactly space, horizontal
tab, line feed, carriage return. -/
def is_whitespace (c : Char) : Bool :=
  c = '\x20' || c = '\x09' || c = '\x0a' || c = '\x0d'

/-- Skip a maximal whitespace run (`parse.rs::eat_whitespace`). -/
def eat_whitespace : List Char → List Char
  | [] => []
  | c :: cs => if is_whitespace c then eat_whitespace cs else c :: cs

/-- Rust `str::strip_prefix(char)` at the character level. -/
def stripChar (c : Char) : List Char → Option (List Char)
  | [] => none
  | d :: rest => if d = c then some rest else none

/-- Rust `str::strip_prefix(&str)` at the character level. -/
def stripLit : List Char → List Char → Option (List Char)
  | [], s => some s
  | _ :: _, [] => none
  | c :: p, d :: s => if d = c then stripLit p s else none

/-- Rust `str::starts_with(char)`. -/
def startsWith (c : Char) : List Char → Bool
  | [] => false
  | d :: _ => d = c

/-- The dispatch guard `input.chars().next().is_some_and(is_ascii_digit)`. -/
def headIsDigit : List Char → Bool
  | [] => false
  | c :: _ => c.isDigit

/-- Message of the `UnexpectedToken` raised by `value`. -/
def unexpectedTokenMsg (input : List Char) : List Char :=
  (("Unexpected token: \x27").toList) ++ input ++ ['\x27']

/-- Message of the `UnexpectedToken` raised by `object` after a member. -/
def objSepMsg (rest : List Char) : List Char :=
  (("Expected \x27,\x27 or \x27\x7d\x27 after object value. Found: \x27").toList) ++ rest ++ ['\x27']

/-- Message of the `UnexpectedToken` raised by `string` on a raw control
character. -/
def ctrlCharMsg (c : Char) : List Char :=
  (("Unescaped control character in string: \x27").toList) ++ [c] ++ ['\x27']

/-- Message of the `InvalidEscapeSequence` raised at end of input. -/
def escEndMsg : List Char :=
  ("Invalid escape sequence: \x27\\\x27 at end of string.").toList

/-- Message of the `InvalidEscapeSequence` raised on an unknown escape. -/
def escBadMsg (c : Char) : List Char :=
  (("Invalid escape sequence: \x27\\").toList) ++ [c] ++ ['\x27']

/-- Message of the `InvalidNumberFormat` raised on a misplaced sign. -/
def signOnlyMsg : List Char :=
  ("sign only allowed at the beginning of the number or immediately after \x27e\x27 or \x27E\x27 for exponents").toList

/-- Message of the `TrailingCharacters` raised by `parse`. -/
def trailingMsg (rest : List Char) : List Char :=
  (("Unexpected characters after JSON value: \x27").toList) ++ rest ++ ['\x27']

/-- Rust `char::to_digit(16)`. -/
def toDigit16 (c : Char) : Option Nat :=
  if '0' ≤ c ∧ c ≤ '9' then some (c.toNat - ('0').toNat)
  else if 'a' ≤ c ∧ c ≤ 'f' then some (c.toNat - ('a').toNat + 10)
  else if 'A' ≤ c ∧ c ≤ 'F' then some (c.toNat - ('A').toNat + 10)
  else none

/-- Rust `char::from_u32`: `some` exactly on Unicode scalar values (below
0x110000 and not a surrogate), matching `Nat.isValidChar`. -/
def fromU32 (n : Nat) : Option Char :=
  if h : n.isValidChar then some (Char.ofNatAux n h) else none

/-- Main scan loop of `parse.rs::string` (lines 164-236).  `cur` is the text
after the opening quote, `acc` the decoded characters so far.  The source
tracks a byte offset into the original input only to return the suffix after
the closing quote, which is exactly the iterator remainder used here. -/
def stringLoop : List Char → List Char → PResult (List Char × List Char)
  | [], _ => .err .UnterminatedString
  | c :: rest, acc =>
    if c = '"' then .ok (acc, rest)
    else if c = '\\' then
      match rest with
      | [] => .err (.InvalidEscapeSequence escEndMsg)
      | e :: rest2 =>
        if e = '"' then stringLoop rest2 (acc ++ ['"'])
        else if e = '\\' then stringLoop rest2 (acc ++ ['\\'])
        else if e = '/' then stringLoop rest2 (acc ++ ['/'])
        else if e = 'b' then stringLoop rest2 (acc ++ ['\x08'])
        else if e = 'f' then stringLoop rest2 (acc ++ ['\x0C'])
        else if e = 'n' then stringLoop rest2 (acc ++ ['\x0a'])
        else if e = 'r' then stringLoop rest2 (acc ++ ['\x0d'])
        else if e = 't' then stringLoop rest2 (acc ++ ['\x09'])
        else if e = 'u' then
          match rest2 with
          | h1 :: h2 :: h3 :: h4 :: rest3 =>
            match toDigit16 h1, toDigit16 h2, toDigit16 h3, toDigit16 h4 with
            | some d1, some d2, some d3, some d4 =>
              match fromU32 (16 * (16 * (16 * d1 + d2) + d3) + d4) with
              | some uc => stringLoop rest3 (acc ++ [uc])
              | none => .err .InvalidUnicodeEscape
            | _, _, _, _ => .err .InvalidUnicodeEscape
          | _ => .err .InvalidUnicodeEscape
        else .err (.InvalidEscapeSequence (escBadMsg e))
    else if c = '\x0a' ∨ c = '\x0d' ∨ c = '\x09' then
      .err (.UnexpectedToken (ctrlCharMsg c))
    else stringLoop rest (acc ++ [c])

/-- The `parse.rs::string` function (lines 155-237): skip whitespace, require
an opening quote, take the early-return branch that eats whitespace before an
immediately following closing quote, else run the scan loop (whose decoded
characters are wrapped as `Value.String`, as at the source's return site). -/
def string (input : List Char) : PResult (Value × List Char) :=
  match stripChar '"' (eat_whitespace input) with
  | none => .err (.MissingExpectedChar '"' input)
  | some cur =>
    match stripChar '"' (eat_whitespace cur) with
    | some rest => .ok (.String [], rest)
    | none =>
      match stringLoop cur [] with
      | .ok (s, rest) => .ok (.String s, rest)
      | .err e => .err e
      | .fatal => .fatal
      | .nofuel => .nofuel

/-- Character scan loop of `parse.rs::number` (lines 248-270): collect digits,
dots and exponent markers into `buf`; `enable_sign` is set by `e`/`E` and
cleared only by consuming one sign; a sign while the flag is clear is an
`InvalidNumberFormat`; any other character ends the number. -/
def numScan : List Char → Bool → List Char → PResult (List Char)
  | [], _, buf => .ok buf
  | c :: cs, enable_sign, buf =>
    if '0' ≤ c ∧ c ≤ '9' then numScan cs enable_sign (buf ++ [c])
    else if c = '.' then numScan cs enable_sign (buf ++ [c])
    else if c = 'e' ∨ c = 'E' then numScan cs true (buf ++ [c])
    else if c = '-' ∨ c = '+' then
      if enable_sign then numScan cs false (buf ++ [c])
      else .err (.InvalidNumberFormat signOnlyMsg)
    else .ok buf

/-- Accumulator form of `digitsVal`. -/
def digitsValAux : List Char → Nat → Nat
  | [], acc => acc
  | c :: cs, acc => digitsValAux cs (acc * 10 + (c.toNat - ('0').toNat))

/-- Decimal value of a digit run. -/
def digitsVal : List Char → Nat
  | [] => 0
  | c :: cs => digitsValAux cs (c.toNat - ('0').toNat)

/-- Rust `str::parse::<f64>` restricted to the scanner's buffer alphabet
(digits, dot, `e`/`E`, interior signs; never a leading sign and never the
letters of `inf`/`NaN`), with the numeric value computed exactly.  Per the
`from_str` grammar the mantissa needs at least one digit, the exponent needs
at least one digit after an optional sign, and the whole buffer must be
consumed; otherwise the conversion fails (`none`). -/
def parseFloat (s : List Char) : Option Q :=
  let ip := s.takeWhile (fun c => c.isDigit)
  let r1 := s.dropWhile (fun c => c.isDigit)
  let fr : List Char × List Char :=
    match r1 with
    | c :: t =>
      if c = '.' then (t.takeWhile (fun c => c.isDigit), t.dropWhile (fun c => c.isDigit))
      else ([], r1)
    | [] => ([], r1)
  let fp := fr.1
  let r2 := fr.2
  if ip.isEmpty && fp.isEmpty then none
  else
    let mantNum : Int := Int.ofNat (digitsVal ip * 10 ^ fp.length + digitsVal fp)
    let mantDen : Nat := 10 ^ fp.length
    match r2 with
    | [] => some (normQ mantNum mantDen)
    | e :: t =>
      if e = 'e' ∨ e = 'E' then
        let st : Bool × List Char :=
          match t with
          | c :: u =>
            if c = '+' then (false, u)
            else if c = '-' then (true, u)
            else (false, t)
          | [] => (false, t)
        let ed := st.2.takeWhile (fun c => c.isDigit)
        let r3 := st.2.dropWhile (fun c => c.isDigit)
        if ed.isEmpty || !r3.isEmpty then none
        else if st.1 then some (normQ mantNum (mantDen * 10 ^ digitsVal ed))
        else some (normQ (mantNum * Int.ofNat (10 ^ digitsVal ed)) mantDen)
      else none

/-- The `parse.rs::number` function (lines 239-278): skip whitespace, strip an
optional leading minus, scan the buffer, strip the buffer off the input
(`unwrap`, modelled as `fatal` on failure, though it cannot fail), convert the
buffer with `f64` parsing (`unwrap`: `fatal` when the buffer is not a valid
float), and negate on a leading minus via `* -1.0`.  The scan and conversion
part is `numberTail`, taking the minus flag. -/
def numberTail (minus : Bool) (cur : List Char) : PResult (Value × List Char) :=
  match numScan cur false [] with
  | .ok buf =>
    match stripLit buf cur with
    | none => .fatal
    | some rest =>
      match parseFloat buf with
      | none => .fatal
      | some q =>
        if minus then .ok (.Number (mulQ q ⟨-1, 1⟩), rest)
        else .ok (.Number q, rest)
  | .err e => .err e
  | .fatal => .fatal
  | .nofuel => .nofuel

/-- The `parse.rs::number` entry: skip whitespace and strip the optional
leading minus, then run the scan and conversion via `numberTail`. -/
def number (input : List Char) : PResult (Value × List Char) :=
  match stripChar '-' (eat_whitespace input) with
  | some rest => numberTail true rest
  | none => numberTail false (eat_whitespace input)

/-- Insertion into the embedded `IndexMap`: replace the value in place when
the key is present (keeping its position), append otherwise. -/
def insertIM : List (List Char × Value) → List Char → Value → List (List Char × Value)
  | [], k, v => [(k, v)]
  | (k0, v0) :: t, k, v =>
    if k0 = k then (k0, v) :: t else (k0, v0) :: insertIM t k v

/-- Key lookup in the embedded `IndexMap`. -/
def lookupIM : List (List Char × Value) → List Char → Option Value
  | [], _ => none
  | (k0, v0) :: t, k => if k0 = k then some v0 else lookupIM t k

mutual

/-- The `parse.rs::value` dispatcher (lines 31-64): skip whitespace, try the
three literals by prefix, then dispatch on the first character. -/
def value : Nat → List Char → PResult (Value × List Char)
  | 0, _ => .nofuel
  | fuel + 1, input0 =>
    let input := eat_whitespace input0
    match stripLit (("false").toList) input with
    | some rest => .ok (.Boolean false, rest)
    | none =>
      match stripLit (("null").toList) input with
      | some rest => .ok (.Null, rest)
      | none =>
        match stripLit (("true").toList) input with
        | some rest => .ok (.Boolean true, rest)
        | none =>
          if startsWith '\x7b' input then object fuel input
          else if startsWith '[' input then array fuel input
          else if startsWith '"' input then string input
          else if startsWith '-' input || headIsDigit input then number input
          else .err (.UnexpectedToken (unexpectedTokenMsg input))

/-- The `parse.rs::object` function (lines 86-126): require `{`, early return
on an immediate `}`, else run the member loop with an empty map. -/
def object : Nat → List Char → PResult (Value × List Char)
  | 0, _ => .nofuel
  | fuel + 1, input =>
    match stripChar '\x7b' (eat_whitespace input) with
    | none => .err (.MissingExpectedChar '\x7b' input)
    | some cur =>
      match stripChar '\x7d' (eat_whitespace cur) with
      | some rest => .ok (.Object [], rest)
      | none => objLoop fuel [] cur

/-- Member loop of `parse.rs::object` (lines 96-123): parse a string key (a
non-`String` result from `string` is `unreachable!`, modelled `fatal`),
require `:`, parse the value, insert, then continue on `,` or stop on `}`. -/
def objLoop : Nat → List (List Char × Value) → List Char → PResult (Value × List Char)
  | 0, _, _ => .nofuel
  | fuel + 1, obj, cur =>
    match string (eat_whitespace cur) with
    | .ok (.String key, rest) =>
      (match stripChar ':' (eat_whitespace rest) with
       | none => .err (.MissingExpectedChar ':' rest)
       | some cur2 =>
         match value fuel cur2 with
         | .ok (v, rest2) =>
           let obj2 := insertIM obj key v
           (match stripChar ',' (eat_whitespace rest2) with
            | some rest3 => objLoop fuel obj2 rest3
            | none =>
              match stripChar '\x7d' (eat_whitespace rest2) with
              | some rest3 => .ok (.Object obj2, rest3)
              | none => .err (.UnexpectedToken (objSepMsg rest2)))
         | .err e => .err e
         | .fatal => .fatal
         | .nofuel => .nofuel)
    | .ok (_, _) => .fatal
    | .err e => .err e
    | .fatal => .fatal
    | .nofuel => .nofuel

/-- The `parse.rs::array` function (lines 128-153): require `[`, early return
on an immediate `]`, else parse the first element and enter the element
loop. -/
def array : Nat → List Char → PResult (Value × List Char)
  | 0, _ => .nofuel
  | fuel + 1, input =>
    match stripChar '[' (eat_whitespace input) with
    | none => .err (.MissingExpectedChar '[' input)
    | some cur =>
      match stripChar ']' (eat_whitespace cur) with
      | some rest => .ok (.Array [], rest)
      | none =>
        match value fuel cur with
        | .ok (v, rest) => arrLoop fuel [v] rest
        | .err e => .err e
        | .fatal => .fatal
        | .nofuel => .nofuel

/-- Element loop of `parse.rs::array` (lines 142-152): while a comma follows,
parse another element; finally require `]`. -/
def arrLoop : Nat → List Value → List Char → PResult (Value × List Char)
  | 0, _, _ => .nofuel
  | fuel + 1, values, cur =>
    match stripChar ',' (eat_whitespace cur) with
    | some rest =>
      (match value fuel rest with
       | .ok (v, rest2) => arrLoop fuel (values ++ [v]) rest2
       | .err e => .err e
       | .fatal => .fatal
       | .nofuel => .nofuel)
    | none =>
      match stripChar ']' (eat_whitespace cur) with
      | some rest => .ok (.Array values, rest)
      | none => .err (.MissingExpectedChar ']' cur)

end

/-- Fuel supplied by `parse`; strictly larger than the mutual call depth the
source recursion can reach on `input` (the dispatcher spends at most three
fuel units per input character before strictly consuming one). -/
def parseFuel (input : List Char) : Nat := 3 * input.length + 8

/-- The public `parse.rs::parse` entry point (lines 19-29): parse one value,
then require that only whitespace remains. -/
def parse (input : List Char) : PResult Value :=
  match value (parseFuel input) input with
  | .ok (v, rest0) =>
    let rest := eat_whitespace rest0
    if rest.isEmpty then .ok v
    else .err (.TrailingCharacters (trailingMsg rest))
  | .err e => .err e
  | .fatal => .fatal
  | .nofuel => .nofuel

/-- Outcome of the `Index` accessors of `src/value.rs`: either a child value
or a fatal invariant violation (a Rust panic), with no typed-`Error` case by
construction. -/
inductive Access (α : Type) where
  | ok : α → Access α
  | violation : Access α
deriving DecidableEq, Repr

/-- The `Index<&str>` impl (value.rs lines 16-26): valid only on `Object`;
`IndexMap` indexing panics on a missing key. -/
def indexKey (v : Value) (key : List Char) : Access Value :=
  match v with
  | .Object obj =>
    (match lookupIM obj key with
     | some x => .ok x
     | none => .violation)
  | _ => .violation

/-- The `Index<usize>` impl (value.rs lines 28-38): valid only on `Array`;
`Vec` indexing panics out of range. -/
def indexNat (v : Value) (i : Nat) : Access Value :=
  match v with
  | .Array arr =>
    (match arr.get? i with
     | some x => .ok x
     | none => .violation)
  | _ => .violation

/-- Keys of an embedded `IndexMap`, in iteration order. -/
def keysOf (m : List (List Char × Value)) : List (List Char) := m.map Prod.fst

mutual

/-- Every object anywhere in the value tree has pairwise distinct keys. -/
def uniqueKeys : Value → Prop
  | .String _ => True
  | .Number _ => True
  | .Boolean _ => True
  | .Null => True
  | .Object m => (keysOf m).Nodup ∧ ukPairs m
  | .Array vs => ukList vs

/-- The `uniqueKeys` invariant for all values of an association list. -/
def ukPairs : List (List Char × Value) → Prop
  | [] => True
  | (_, v) :: t => uniqueKeys v ∧ ukPairs t

/-- The `uniqueKeys` invariant for all elements of a list. -/
def ukList : List Value → Prop
  | [] => True
  | v :: t => uniqueKeys v ∧ ukList t

end

/-- All characters of a list are JSON whitespace. -/
def allWs (l : List Char) : Bool := l.all is_whitespace

/-! Definitions for the formatter (the source of `generate.rs` is absent from
the repository snapshot, so the formatter is modelled from the spec) and for
the round-trip development. -/

/-- Escape one character for string output: the quote, the backslash and the
five control characters that the parser decodes get their two-character
escape; every other character is emitted raw. -/
def escChar (c : Char) : List Char :=
  if c = '"' then ['\\', '"']
  else if c = '\\' then ['\\', '\\']
  else if c = '\x08' then ['\\', 'b']
  else if c = '\x0C' then ['\\', 'f']
  else if c = '\x0a' then ['\\', 'n']
  else if c = '\x0d' then ['\\', 'r']
  else if c = '\x09' then ['\\', 't']
  else [c]

/-- Escape a whole string for output. -/
def escString : List Char → List Char
  | [] => []
  | c :: cs => escChar c ++ escString cs

/-- The character of a decimal digit. -/
def digitChar (d : Nat) : Char := Char.ofNat (48 + d)

/-- Fueled most-significant-first decimal digit emitter; the fuel dominates
the digit count, so the zero-fuel fallback is unreachable from `natDigits`. -/
def ndA : Nat → Nat → List Char → List Char
  | 0, _, acc => acc
  | f + 1, n, acc => if n = 0 then acc else ndA f (n / 10) (digitChar (n % 10) :: acc)

/-- Decimal digits of a natural number, most significant first. -/
def natDigits (n : Nat) : List Char := if n = 0 then ['0'] else ndA n n []

/-- Bounded search for the smallest exponent with `d` dividing `10 ^ k`,
starting at `k` with the given fuel. -/
def kOfAux : Nat → Nat → Nat → Nat
  | 0, _, k => k
  | f + 1, d, k => if d ∣ 10 ^ k then k else kOfAux f d (k + 1)

/-- Smallest exponent `k ≤ d` with `d` dividing `10 ^ k` (when one exists;
for other denominators the search just returns its bound). -/
def kOf (d : Nat) : Nat := kOfAux (d + 1) d 0

/-- Modelled from the spec: the number rendering of the absent formatter
(`generate.rs`), a stable decimal representation of the stored number: the
scaled integer mantissa, and a base-ten exponent when the denominator is not
one, with a leading minus for negative numbers. -/
def fmtNum (q : Q) : List Char :=
  let k := kOf q.den
  let core : List Char :=
    if k = 0 then natDigits (q.num.natAbs * (10 ^ k / q.den))
    else natDigits (q.num.natAbs * (10 ^ k / q.den)) ++ ('e' :: '-' :: natDigits k)
  if q.num < 0 then '-' :: core else core

/-- Indentation: a run of spaces. -/
def indentChars (n : Nat) : List Char := List.replicate n ' '

mutual

/-- Modelled from the spec: the value renderer of the absent `generate.rs`
(spec section 4.3): strings re-escape what the parser decodes, numbers use
the stable decimal form, booleans and null are their literal tokens, and
containers put one member per line, indented one level deeper, with a comma
between members and none after the last. -/
def fmtV : Value → Nat → Nat → List Char
  | .String s, _, _ => '"' :: (escString s ++ ['"'])
  | .Number q, _, _ => fmtNum q
  | .Boolean true, _, _ => ("true").toList
  | .Boolean false, _, _ => ("false").toList
  | .Null, _, _ => ("null").toList
  | .Object [], _, _ => ['\x7b', '\x7d']
  | .Object (p :: ps), d, iw =>
    '\x7b' :: '\x0a' ::
      (fmtMembers (p :: ps) (d + 1) iw ++
        ('\x0a' :: (indentChars (d * iw) ++ ['\x7d'])))
  | .Array [], _, _ => ['[', ']']
  | .Array (v :: vs), d, iw =>
    '[' :: '\x0a' ::
      (fmtElems (v :: vs) (d + 1) iw ++
        ('\x0a' :: (indentChars (d * iw) ++ [']'])))

/-- Modelled from the spec: one object member per line (key, colon, space,
value), comma-separated. -/
def fmtMembers : List (List Char × Value) → Nat → Nat → List Char
  | [], _, _ => []
  | [(k, v)], d, iw =>
    indentChars (d * iw) ++
      ('"' :: (escString k ++ ('"' :: ':' :: ' ' :: fmtV v d iw)))
  | (k, v) :: p :: ps, d, iw =>
    (indentChars (d * iw) ++
      ('"' :: (escString k ++ ('"' :: ':' :: ' ' :: fmtV v d iw)))) ++
      (',' :: '\x0a' :: fmtMembers (p :: ps) d iw)

/-- Modelled from the spec: one array element per line, comma-separated. -/
def fmtElems : List Value → Nat → Nat → List Char
  | [], _, _ => []
  | [v], d, iw => indentChars (d * iw) ++ fmtV v d iw
  | v :: w :: vs, d, iw =>
    (indentChars (d * iw) ++ fmtV v d iw) ++ (',' :: '\x0a' :: fmtElems (w :: vs) d iw)

end

/-- The `lib.rs::format` facade (lines 17-19): parse, then pretty-render the
tree with an indent width of two. -/
def format (input : List Char) : PResult (List Char) :=
  match parse input with
  | .ok v => .ok (fmtV v 0 2)
  | .err e => .err e
  | .fatal => .fatal
  | .nofuel => .nofuel

mutual

/-- Tree size measure used for the round-trip induction. -/
def szV : Value → Nat
  | .Object m => 1 + szP m
  | .Array vs => 1 + szE vs
  | _ => 1

/-- Size of an association list of members. -/
def szP : List (List Char × Value) → Nat
  | [] => 0
  | (_, v) :: t => 1 + szV v + szP t

/-- Size of a list of elements. -/
def szE : List Value → Nat
  | [] => 0
  | v :: t => 1 + szV v + szE t

end

mutual

/-- Fuel sufficient for `value` to re-parse the rendering of a tree. -/
def needFuel : Value → Nat
  | .Object [] => 2
  | .Object (p :: ps) => 2 + needFuelM (p :: ps)
  | .Array [] => 2
  | .Array (v :: vs) => 2 + needFuel v + needFuelE vs
  | _ => 1

/-- Fuel sufficient for the member loop over the given members. -/
def needFuelM : List (List Char × Value) → Nat
  | [] => 1
  | (_, v) :: t => 1 + needFuel v + needFuelM t

/-- Fuel sufficient for the element loop over the given elements. -/
def needFuelE : List Value → Nat
  | [] => 1
  | v :: t => 1 + needFuel v + needFuelE t

end

mutual

/-- Every number payload in the tree satisfies `P`. -/
def allNums (P : Q → Prop) : Value → Prop
  | .Number q => P q
  | .Object m => allNumsP P m
  | .Array vs => allNumsL P vs
  | _ => True

/-- The `allNums` condition over an association list. -/
def allNumsP (P : Q → Prop) : List (List Char × Value) → Prop
  | [] => True
  | (_, v) :: t => allNums P v ∧ allNumsP P t

/-- The `allNums` condition over an element list. -/
def allNumsL (P : Q → Prop) : List Value → Prop
  | [] => True
  | v :: t => allNums P v ∧ allNumsL P t

end

mutual

/-- Every string payload and every object key in the tree satisfies `P`. -/
def allStrs (P : List Char → Prop) : Value → Prop
  | .String s => P s
  | .Object m => allStrsP P m
  | .Array vs => allStrsL P vs
  | _ => True

/-- The `allStrs` condition over an association list (keys included). -/
def allStrsP (P : List Char → Prop) : List (List Char × Value) → Prop
  | [] => True
  | (k, v) :: t => P k ∧ allStrs P v ∧ allStrsP P t

/-- The `allStrs` condition over an element list. -/
def allStrsL (P : List Char → Prop) : List Value → Prop
  | [] => True
  | v :: t => allStrs P v ∧ allStrsL P t

end

/-- A string is empty or contains a non-space character.  Nonempty all-space
strings are the ones the empty-string fast path of the parser collapses, so
they are excluded from the round trip. -/
def strOK (s : List Char) : Prop := s = [] ∨ ∃ c ∈ s, c ≠ ' '

/-- The representability condition on a number in the exact-rational model
of `f64`: the denominator divides a power of ten (every decimal double is of
this form). -/
def reprQ (q : Q) : Prop := q.den ∣ 10 ^ q.den

/-- Internal invariant of parsed numbers: a normalized fraction. -/
def reducedQ (q : Q) : Prop := q.den ≠ 0 ∧ Int.gcd q.num q.den = 1

/-- The remaining input does not begin with a character the number scanner
would consume. -/
def scanStops : List Char → Prop
  | [] => True
  | c :: _ =>
    ¬('0' ≤ c ∧ c ≤ '9') ∧ c ≠ '.' ∧ c ≠ 'e' ∧ c ≠ 'E' ∧ c ≠ '-' ∧ c ≠ '+'

/-- The render-parse property of a tree: parsing its rendering at any depth
and indent width, with sufficient fuel and a scan-stopping continuation,
consumes exactly the rendering and returns the tree. -/
def RP (v : Value) : Prop :=
  ∀ d iw n rest, scanStops rest → needFuel v ≤ n →
    value n (fmtV v d iw ++ rest) = .ok (v, rest)

/-! Helper lemmas about whitespace handling. -/

theorem eat_whitespace_allws_append (ws l : List Char) (h : allWs ws = true) :
    eat_whitespace (ws ++ l) = eat_whitespace l := by
  induction ws with
  | nil => rfl
  | cons c t ih =>
    simp only [allWs, List.all_cons, Bool.and_eq_true] at h
    simpa [eat_whitespace, h.1] using ih (by simpa [allWs] using h.2)

theorem eat_whitespace_append_of_any (l tail : List Char)
    (h : l.any (fun c => !is_whitespace c) = true) :
    eat_whitespace (l ++ tail) = eat_whitespace l ++ tail := by
  induction l with
  | nil => simp at h
  | cons c t ih =>
    by_cases hc : is_whitespace c = true
    · simp only [List.any_cons, hc, Bool.not_true, Bool.false_or] at h
      simpa [eat_whitespace, hc] using ih h
    · simp only [Bool.not_eq_true] at hc
      simp [eat_whitespace, hc]

theorem eat_whitespace_cons_of_any (l : List Char)
    (h : l.any (fun c => !is_whitespace c) = true) :
    ∃ c0 t0, eat_whitespace l = c0 :: t0 ∧ c0 ∈ l ∧ is_whitespace c0 = false := by
  induction l with
  | nil => simp at h
  | cons c t ih =>
    by_cases hc : is_whitespace c = true
    · simp only [List.any_cons, hc, Bool.not_true, Bool.false_or] at h
      obtain ⟨c0, t0, h1, h2, h3⟩ := ih h
      exact ⟨c0, t0, by simpa [eat_whitespace, hc] using h1, List.mem_cons_of_mem _ h2, h3⟩
    · simp only [Bool.not_eq_true] at hc
      exact ⟨c, t, by simp [eat_whitespace, hc], List.mem_cons_self c t, hc⟩

/-! Helper lemmas about the string scan loop. -/

theorem stringLoop_cons_plain (c : Char) (cs acc : List Char)
    (h1 : c ≠ '"') (h2 : c ≠ '\\') (h3 : c ≠ '\x0a') (h4 : c ≠ '\x0d') (h5 : c ≠ '\x09') :
    stringLoop (c :: cs) acc = stringLoop cs (acc ++ [c]) := by
  conv_lhs => rw [stringLoop.eq_def]
  simp [h1, h2, h3, h4, h5]

theorem stringLoop_plain (content : List Char)
    (h : ∀ c ∈ content, c ≠ '"' ∧ c ≠ '\\' ∧ c ≠ '\x0a' ∧ c ≠ '\x0d' ∧ c ≠ '\x09') :
    ∀ rest acc, stringLoop (content ++ '"' :: rest) acc = .ok (acc ++ content, rest) := by
  induction content with
  | nil =>
    intro rest acc
    simp only [List.nil_append, List.append_nil]
    rw [stringLoop.eq_def]
    simp
  | cons c t ih =>
    intro rest acc
    obtain ⟨h1, h2, h3, h4, h5⟩ := h c (List.mem_cons_self c t)
    have ht : ∀ x ∈ t, x ≠ '"' ∧ x ≠ '\\' ∧ x ≠ '\x0a' ∧ x ≠ '\x0d' ∧ x ≠ '\x09' :=
      fun x hx => h x (List.mem_cons_of_mem _ hx)
    rw [List.cons_append, stringLoop_cons_plain c _ _ h1 h2 h3 h4 h5]
    simpa [List.append_assoc] using ih ht rest (acc ++ [c])

theorem string_allws_fastpath (ws rest : List Char) (h : allWs ws = true) :
    string ('"' :: (ws ++ '"' :: rest)) = .ok (.String [], rest) := by
  have e1 : stripChar '"' (eat_whitespace ('"' :: (ws ++ '"' :: rest))) =
      some (ws ++ '"' :: rest) := rfl
  have e2 : eat_whitespace (ws ++ '"' :: rest) = '"' :: rest := by
    rw [eat_whitespace_allws_append _ _ h]; rfl
  simp only [string, e1, e2]
  rfl

/-- Any dispatch of `value` on nonzero fuel whose whitespace-eaten input
starts with a quote goes to `string`. -/
theorem value_succ_quote (n : Nat) (input t : List Char)
    (h : eat_whitespace input = '"' :: t) :
    value (n + 1) input = string ('"' :: t) := by
  simp only [value]
  rw [h]
  rfl

/-! Shape lemmas: `string` only produces `String`, `number` only `Number`. -/

theorem string_shape (input : List Char) (v : Value) (rest : List Char)
    (h : string input = .ok (v, rest)) : ∃ s, v = .String s := by
  simp only [string] at h
  split at h
  · exact absurd h (by simp)
  · split at h
    · exact ⟨[], by cases h; rfl⟩
    · split at h
      · exact ⟨_, by cases h; rfl⟩
      · exact absurd h (by simp)
      · exact absurd h (by simp)
      · exact absurd h (by simp)

theorem numberTail_shape (minus : Bool) (cur : List Char) (v : Value) (rest : List Char)
    (h : numberTail minus cur = .ok (v, rest)) : ∃ q, v = .Number q := by
  simp only [numberTail] at h
  split at h
  · split at h
    · exact absurd h (by simp)
    · split at h
      · exact absurd h (by simp)
      · split at h
        · exact ⟨_, by cases h; rfl⟩
        · exact ⟨_, by cases h; rfl⟩
  · exact absurd h (by simp)
  · exact absurd h (by simp)
  · exact absurd h (by simp)

theorem number_shape (input : List Char) (v : Value) (rest : List Char)
    (h : number input = .ok (v, rest)) : ∃ q, v = .Number q := by
  simp only [number] at h
  split at h
  · exact numberTail_shape _ _ _ _ h
  · exact numberTail_shape _ _ _ _ h

/-! Unfolding lemmas for the key-uniqueness invariant. -/

theorem uk_string (s : List Char) : uniqueKeys (.String s) := by simp [uniqueKeys]

theorem uk_number (q : Q) : uniqueKeys (.Number q) := by simp [uniqueKeys]

theorem uk_boolean (b : Bool) : uniqueKeys (.Boolean b) := by simp [uniqueKeys]

theorem uk_null : uniqueKeys .Null := by simp [uniqueKeys]

theorem uk_object (m : List (List Char × Value)) :
    uniqueKeys (.Object m) ↔ (keysOf m).Nodup ∧ ukPairs m := by simp [uniqueKeys]

theorem uk_array (vs : List Value) : uniqueKeys (.Array vs) ↔ ukList vs := by
  simp [uniqueKeys]

theorem ukPairs_nil : ukPairs [] := by simp [ukPairs]

theorem ukPairs_cons (k : List Char) (v : Value) (t : List (List Char × Value)) :
    ukPairs ((k, v) :: t) ↔ uniqueKeys v ∧ ukPairs t := by simp [ukPairs]

theorem ukList_nil : ukList [] := by simp [ukList]

theorem ukList_cons (v : Value) (t : List Value) :
    ukList (v :: t) ↔ uniqueKeys v ∧ ukList t := by simp [ukList]

/-! Lemmas about `insertIM` and the key-uniqueness invariant. -/

theorem keysOf_insertIM (m : List (List Char × Value)) (k : List Char) (v : Value) :
    keysOf (insertIM m k v) = if k ∈ keysOf m then keysOf m else keysOf m ++ [k] := by
  induction m with
  | nil =>
    rw [if_neg (show ¬k ∈ keysOf ([] : List (List Char × Value)) by simp [keysOf])]
    rfl
  | cons p t ih =>
    obtain ⟨k0, v0⟩ := p
    by_cases h : k0 = k
    · subst h
      rw [insertIM, if_pos rfl,
        if_pos (show k0 ∈ keysOf ((k0, v0) :: t) from List.mem_cons_self k0 (keysOf t))]
      rfl
    · have hmem : k ∈ keysOf ((k0, v0) :: t) ↔ k ∈ keysOf t := by
        simp [keysOf, Ne.symm h]
      rw [insertIM, if_neg h]
      show k0 :: keysOf (insertIM t k v) = _
      rw [ih]
      by_cases hm : k ∈ keysOf t
      · rw [if_pos hm, if_pos (hmem.mpr hm)]
        rfl
      · rw [if_neg hm, if_neg (fun hc => hm (hmem.mp hc))]
        rfl

theorem nodup_insertIM (m : List (List Char × Value)) (k : List Char) (v : Value)
    (h : (keysOf m).Nodup) : (keysOf (insertIM m k v)).Nodup := by
  rw [keysOf_insertIM]
  split
  · exact h
  · rename_i hm
    exact List.Nodup.append h (List.nodup_singleton k)
      (fun a ha hb => hm ((List.mem_singleton.mp hb) ▸ ha))

theorem ukPairs_insertIM (m : List (List Char × Value)) (k : List Char) (v : Value)
    (hm : ukPairs m) (hv : uniqueKeys v) : ukPairs (insertIM m k v) := by
  induction m with
  | nil => simpa [insertIM, ukPairs] using hv
  | cons p t ih =>
    obtain ⟨k0, v0⟩ := p
    rw [ukPairs_cons] at hm
    by_cases h : k0 = k
    · subst h
      rw [insertIM, if_pos rfl, ukPairs_cons]
      exact ⟨hv, hm.2⟩
    · rw [insertIM, if_neg h, ukPairs_cons]
      exact ⟨hm.1, ih hm.2⟩

theorem lookupIM_insertIM (m : List (List Char × Value)) (k : List Char) (v : Value) :
    lookupIM (insertIM m k v) k = some v := by
  induction m with
  | nil => simp [insertIM, lookupIM]
  | cons p t ih =>
    obtain ⟨k0, v0⟩ := p
    by_cases h : k0 = k
    · subst h
      simp [insertIM, lookupIM]
    · simp [insertIM, lookupIM, h, ih]

theorem ukList_append_one (vs : List Value) (v : Value)
    (hl : ukList vs) (hv : uniqueKeys v) : ukList (vs ++ [v]) := by
  induction vs with
  | nil => simpa [ukList] using hv
  | cons x t ih =>
    rw [ukList_cons] at hl
    rw [List.cons_append, ukList_cons]
    exact ⟨hl.1, ih hl.2⟩

/-- Mutual induction over the fueled parser: every successfully parsed value
satisfies the key-uniqueness invariant, with the accumulator invariants for
the two loops. -/
theorem parserUK : ∀ n : Nat,
    (∀ input v rest, value n input = .ok (v, rest) → uniqueKeys v) ∧
    (∀ input v rest, object n input = .ok (v, rest) → uniqueKeys v) ∧
    (∀ obj cur v rest, (keysOf obj).Nodup → ukPairs obj →
      objLoop n obj cur = .ok (v, rest) → uniqueKeys v) ∧
    (∀ input v rest, array n input = .ok (v, rest) → uniqueKeys v) ∧
    (∀ vs cur v rest, ukList vs → arrLoop n vs cur = .ok (v, rest) → uniqueKeys v) := by
  intro n
  induction n with
  | zero =>
    refine ⟨?_, ?_, ?_, ?_, ?_⟩ <;> intros <;> simp_all [value, object, objLoop, array, arrLoop]
  | succ n ih =>
    obtain ⟨ihv, iho, ihol, iha, ihal⟩ := ih
    have hval : ∀ input v rest, value (n + 1) input = .ok (v, rest) → uniqueKeys v := by
      intro input v rest h
      simp only [value] at h
      split at h
      · cases h; exact uk_boolean false
      · split at h
        · cases h; exact uk_null
        · split at h
          · cases h; exact uk_boolean true
          · split at h
            · exact iho _ _ _ h
            · split at h
              · exact iha _ _ _ h
              · split at h
                · obtain ⟨s, rfl⟩ := string_shape _ _ _ h
                  exact uk_string s
                · split at h
                  · obtain ⟨q, rfl⟩ := number_shape _ _ _ h
                    exact uk_number q
                  · exact absurd h (by simp)
    have hobjLoop : ∀ obj cur v rest, (keysOf obj).Nodup → ukPairs obj →
        objLoop (n + 1) obj cur = .ok (v, rest) → uniqueKeys v := by
      intro obj cur v rest hnd hps h
      simp only [objLoop] at h
      split at h
      · rename_i key restk heqs
        split at h
        · exact absurd h (by simp)
        · rename_i cur2 hcolon
          split at h
          · rename_i v2 rest2 heqv
            have hv2 : uniqueKeys v2 := ihv _ _ _ heqv
            split at h
            · exact ihol _ _ _ _ (nodup_insertIM _ _ _ hnd) (ukPairs_insertIM _ _ _ hps hv2) h
            · split at h
              · cases h
                exact (uk_object _).mpr
                  ⟨nodup_insertIM _ _ _ hnd, ukPairs_insertIM _ _ _ hps hv2⟩
              · exact absurd h (by simp)
          · exact absurd h (by simp)
          · exact absurd h (by simp)
          · exact absurd h (by simp)
      · exact absurd h (by simp)
      · exact absurd h (by simp)
      · exact absurd h (by simp)
      · exact absurd h (by simp)
    have hobj : ∀ input v rest, object (n + 1) input = .ok (v, rest) → uniqueKeys v := by
      intro input v rest h
      simp only [object] at h
      split at h
      · exact absurd h (by simp)
      · split at h
        · cases h
          exact (uk_object _).mpr ⟨List.nodup_nil, ukPairs_nil⟩
        · refine ihol _ _ _ _ ?_ ukPairs_nil h
          exact List.nodup_nil
    have harrLoop : ∀ vs cur v rest, ukList vs →
        arrLoop (n + 1) vs cur = .ok (v, rest) → uniqueKeys v := by
      intro vs cur v rest hl h
      simp only [arrLoop] at h
      split at h
      · split at h
        · rename_i v2 rest2 heqv
          exact ihal _ _ _ _ (ukList_append_one _ _ hl (ihv _ _ _ heqv)) h
        · exact absurd h (by simp)
        · exact absurd h (by simp)
        · exact absurd h (by simp)
      · split at h
        · cases h; exact (uk_array _).mpr hl
        · exact absurd h (by simp)
    have harr : ∀ input v rest, array (n + 1) input = .ok (v, rest) → uniqueKeys v := by
      intro input v rest h
      simp only [array] at h
      split at h
      · exact absurd h (by simp)
      · split at h
        · cases h; exact (uk_array _).mpr ukList_nil
        · split at h
          · rename_i v2 rest2 heqv
            exact ihal _ _ _ _ ((ukList_cons _ _).mpr ⟨ihv _ _ _ heqv, ukList_nil⟩) h
          · exact absurd h (by simp)
          · exact absurd h (by simp)
          · exact absurd h (by simp)
    exact ⟨hval, hobj, hobjLoop, harr, harrLoop⟩

/-! The claim theorems. -/

/-- Claim C1 (code evidence): the claim states that parse never panics on
malformed input, including a bare minus, a digit followed by a bare exponent
marker, and an exponent with a late sign.  The code in fact reaches
`buf.parse::<f64>().unwrap()` with a buffer that is not a valid float on
each of these inputs and panics, modelled here by `.fatal`. -/
theorem parse_panics_on_pathological_numbers :
    parse (("-").toList) = .fatal ∧
    parse (("1e").toList) = .fatal ∧
    parse (("1e2-3").toList) = .fatal :=
  ⟨rfl, rfl, rfl⟩

/-- Claim C3: parse succeeds exactly when one JSON value is consumed and the
remaining characters are all whitespace; a non-whitespace remainder yields
TrailingCharacters naming the remaining text, as on the empty object followed
by the word extra. -/
theorem parse_success_iff_single_value_then_ws :
    (∀ input v, parse input = .ok v ↔
      ∃ rest, value (parseFuel input) input = .ok (v, rest) ∧ eat_whitespace rest = []) ∧
    (∀ input v rest, value (parseFuel input) input = .ok (v, rest) →
      eat_whitespace rest ≠ [] →
      parse input = .err (.TrailingCharacters (trailingMsg (eat_whitespace rest)))) ∧
    parse (("\x7b\x7dextra").toList) =
      .err (.TrailingCharacters
        (("Unexpected characters after JSON value: \x27extra\x27").toList)) := by
  refine ⟨?_, ?_, rfl⟩
  · intro input v
    constructor
    · intro h
      simp only [parse] at h
      cases hv : value (parseFuel input) input with
      | ok p =>
        obtain ⟨v0, rest0⟩ := p
        rw [hv] at h
        simp only [PResult.ok.injEq] at h
        cases hE : eat_whitespace rest0 with
        | nil =>
          rw [hE] at h
          simp at h
          exact ⟨rest0, by rw [h], hE⟩
        | cons a l =>
          rw [hE] at h
          simp at h
      | err e => rw [hv] at h; simp at h
      | fatal => rw [hv] at h; simp at h
      | nofuel => rw [hv] at h; simp at h
    · rintro ⟨rest, hv, hws⟩
      simp only [parse]
      rw [hv]
      simp [hws]
  · intro input v rest hv hne
    simp only [parse]
    rw [hv]
    have hE : (eat_whitespace rest).isEmpty = false := by
      cases hE2 : eat_whitespace rest
      · exact absurd hE2 hne
      · rfl
    simp [hE]

/-- Witness for claim C3 at the concrete input of an empty object followed by
the word extra. -/
theorem parse_success_iff_single_value_then_ws_witness :
    value (parseFuel (("\x7b\x7dextra").toList)) (("\x7b\x7dextra").toList) =
      .ok (.Object [], ("extra").toList) ∧
    eat_whitespace (("extra").toList) ≠ [] ∧
    parse (("\x7b\x7dextra").toList) =
      .err (.TrailingCharacters (trailingMsg (eat_whitespace (("extra").toList)))) :=
  ⟨rfl, by decide,
    parse_success_iff_single_value_then_ws.2.1 _ (.Object []) (("extra").toList) rfl
      (by decide)⟩

/-- Claim C4: every object produced by parse has unique keys; inserting an
existing key overwrites the value in place keeping the position of first
insertion, a fresh key is appended; parsing an object with a duplicate key
yields a one-entry object holding the later value. -/
theorem parse_objects_unique_keys_overwrite_in_place :
    (∀ input v, parse input = .ok v → uniqueKeys v) ∧
    (∀ m k v, keysOf (insertIM m k v) = if k ∈ keysOf m then keysOf m else keysOf m ++ [k]) ∧
    (∀ m k v, lookupIM (insertIM m k v) k = some v) ∧
    parse (("\x7b\"a\":1,\"a\":2\x7d").toList) =
      .ok (.Object [((("a").toList), .Number ⟨2, 1⟩)]) := by
  refine ⟨?_, keysOf_insertIM, lookupIM_insertIM, rfl⟩
  intro input v h
  simp only [parse] at h
  cases hv : value (parseFuel input) input with
  | ok p =>
    obtain ⟨v0, rest0⟩ := p
    rw [hv] at h
    simp only [PResult.ok.injEq] at h
    have huk := (parserUK (parseFuel input)).1 _ _ _ hv
    cases hE : eat_whitespace rest0 with
    | nil =>
      rw [hE] at h
      simp at h
      exact h ▸ huk
    | cons a l =>
      rw [hE] at h
      simp at h
  | err e => rw [hv] at h; simp at h
  | fatal => rw [hv] at h; simp at h
  | nofuel => rw [hv] at h; simp at h

/-- Witness for claim C4: a concrete parse and a concrete insertion. -/
theorem parse_objects_unique_keys_overwrite_in_place_witness :
    parse (("\x7b\"a\":1\x7d").toList) = .ok (.Object [((("a").toList), .Number ⟨1, 1⟩)]) ∧
    uniqueKeys (.Object [((("a").toList), .Number ⟨1, 1⟩)]) ∧
    lookupIM (insertIM [] (("a").toList) (.Number ⟨1, 1⟩)) (("a").toList) =
      some (.Number ⟨1, 1⟩) :=
  ⟨rfl,
    parse_objects_unique_keys_overwrite_in_place.1 (("\x7b\"a\":1\x7d").toList)
      (.Object [((("a").toList), .Number ⟨1, 1⟩)]) rfl,
    parse_objects_unique_keys_overwrite_in_place.2.2.1 [] (("a").toList) (.Number ⟨1, 1⟩)⟩

/-- Claim C5: each of the eight simple escapes decodes to its literal
character, a four-hex-digit unicode escape decodes independently to one
scalar value, and the concrete escape-fidelity example decodes as stated. -/
theorem string_escape_decoding :
    (∀ rest acc, stringLoop ('\\' :: '"' :: rest) acc = stringLoop rest (acc ++ ['"'])) ∧
    (∀ rest acc, stringLoop ('\\' :: '\\' :: rest) acc = stringLoop rest (acc ++ ['\\'])) ∧
    (∀ rest acc, stringLoop ('\\' :: '/' :: rest) acc = stringLoop rest (acc ++ ['/'])) ∧
    (∀ rest acc, stringLoop ('\\' :: 'b' :: rest) acc = stringLoop rest (acc ++ ['\x08'])) ∧
    (∀ rest acc, stringLoop ('\\' :: 'f' :: rest) acc = stringLoop rest (acc ++ ['\x0C'])) ∧
    (∀ rest acc, stringLoop ('\\' :: 'n' :: rest) acc = stringLoop rest (acc ++ ['\x0a'])) ∧
    (∀ rest acc, stringLoop ('\\' :: 'r' :: rest) acc = stringLoop rest (acc ++ ['\x0d'])) ∧
    (∀ rest acc, stringLoop ('\\' :: 't' :: rest) acc = stringLoop rest (acc ++ ['\x09'])) ∧
    (∀ h1 h2 h3 h4 rest acc d1 d2 d3 d4 uc,
      toDigit16 h1 = some d1 → toDigit16 h2 = some d2 → toDigit16 h3 = some d3 →
      toDigit16 h4 = some d4 →
      fromU32 (16 * (16 * (16 * d1 + d2) + d3) + d4) = some uc →
      stringLoop ('\\' :: 'u' :: h1 :: h2 :: h3 :: h4 :: rest) acc =
        stringLoop rest (acc ++ [uc])) ∧
    parse (("\"hello \\\"world\\\"\\\\\\/\\b\\f\\n\\r\\t\\u0041\"").toList) =
      .ok (.String (("hello \"world\"\\/\x08\x0C\x0A\x0D\x09A").toList)) := by
  refine ⟨?_, ?_, ?_, ?_, ?_, ?_, ?_, ?_, ?_, rfl⟩
  any_goals
    intro rest acc
    rw [stringLoop.eq_def]
    simp
  intro h1 h2 h3 h4 rest acc d1 d2 d3 d4 uc hd1 hd2 hd3 hd4 huc
  rw [stringLoop.eq_def]
  simp [hd1, hd2, hd3, hd4, huc]

/-- Witness for claim C5: the unicode escape branch at the four digits of the
letter A. -/
theorem string_escape_decoding_witness :
    toDigit16 '0' = some 0 ∧ toDigit16 '4' = some 4 ∧ toDigit16 '1' = some 1 ∧
    fromU32 (16 * (16 * (16 * 0 + 0) + 4) + 1) = some 'A' ∧
    stringLoop ('\\' :: 'u' :: '0' :: '0' :: '4' :: '1' :: ('"' :: [])) [] =
      stringLoop ('"' :: []) ([] ++ ['A']) :=
  ⟨rfl, rfl, rfl, rfl,
    string_escape_decoding.2.2.2.2.2.2.2.2.1 '0' '0' '4' '1' ('"' :: []) []
      0 0 4 1 'A' rfl rfl rfl rfl rfl⟩

/-- Claim C6: the six documented number forms parse to the stated double
values (exact rationals here, each stated value being exactly representable),
and a leading minus negates the result of the unsigned scan. -/
theorem parse_number_forms :
    parse (("10").toList) = .ok (.Number ⟨10, 1⟩) ∧
    parse (("-10").toList) = .ok (.Number ⟨-10, 1⟩) ∧
    parse (("10.01234").toList) = .ok (.Number ⟨500617, 50000⟩) ∧
    parse (("10e3").toList) = .ok (.Number ⟨10000, 1⟩) ∧
    parse (("10e-3").toList) = .ok (.Number ⟨1, 100⟩) ∧
    parse (("10e+3").toList) = .ok (.Number ⟨10000, 1⟩) ∧
    qval ⟨10, 1⟩ = (10 : ℚ) ∧ qval ⟨-10, 1⟩ = (-10 : ℚ) ∧
    qval ⟨500617, 50000⟩ = (10.01234 : ℚ) ∧ qval ⟨10000, 1⟩ = (10000 : ℚ) ∧
    qval ⟨1, 100⟩ = (0.01 : ℚ) ∧
    (∀ cs q rest, eat_whitespace cs = cs → stripChar '-' cs = none →
      number cs = .ok (.Number q, rest) →
      number ('-' :: cs) = .ok (.Number (mulQ q ⟨-1, 1⟩), rest)) := by
  refine ⟨rfl, rfl, rfl, rfl, rfl, rfl, ?_, ?_, ?_, ?_, ?_, ?_⟩
  · norm_num [qval]
  · norm_num [qval]
  · norm_num [qval]
  · norm_num [qval]
  · norm_num [qval]
  · intro cs q rest hws hm h
    simp only [number, hws, hm] at h
    simp only [number]
    rw [show stripChar '-' (eat_whitespace ('-' :: cs)) = some cs from rfl]
    show numberTail true cs = _
    simp only [numberTail] at h ⊢
    cases hscan : numScan cs false [] with
    | ok buf =>
      rw [hscan] at h
      simp only [] at h ⊢
      cases hstrip : stripLit buf cs with
      | none =>
        rw [hstrip] at h
        simp at h
      | some rest2 =>
        rw [hstrip] at h
        simp only [] at h ⊢
        cases hpf : parseFloat buf with
        | none =>
          rw [hpf] at h
          simp at h
        | some q2 =>
          rw [hpf] at h
          simp only [] at h ⊢
          simp at h ⊢
          rcases h with ⟨rfl, rfl⟩
          exact ⟨rfl, rfl⟩
    | err e =>
      rw [hscan] at h
      simp at h
    | fatal =>
      rw [hscan] at h
      simp at h
    | nofuel =>
      rw [hscan] at h
      simp at h

/-- Witness for claim C6: the negation component at the input 10. -/
theorem parse_number_forms_witness :
    eat_whitespace (("10").toList) = ("10").toList ∧
    stripChar '-' (("10").toList) = none ∧
    number (("10").toList) = .ok (.Number ⟨10, 1⟩, []) ∧
    number ('-' :: (("10").toList)) = .ok (.Number (mulQ ⟨10, 1⟩ ⟨-1, 1⟩), []) :=
  ⟨rfl, rfl, rfl,
    parse_number_forms.2.2.2.2.2.2.2.2.2.2.2 (("10").toList) ⟨10, 1⟩ [] rfl rfl rfl⟩

/-- Claim C7 counterexample: in the input where a sign follows the exponent
digits rather than the exponent marker, the scanner still accepts the sign
into its buffer (the sign-allowed flag was set by the marker and has not been
cleared), and the parse then panics at the float conversion instead of
failing with InvalidNumberFormat. -/
theorem numScan_late_sign_accepted_then_panic :
    numScan (("1e2-3").toList) false [] = .ok (("1e2-3").toList) ∧
    parse (("1e2-3").toList) = .fatal :=
  ⟨rfl, rfl⟩

/-- Claim C7 as amended: a sign is consumed exactly when the single-shot
sign-allowed flag is set; the flag is set by an exponent marker, cleared only
by consuming one sign, and left unchanged by digits and the dot, so a sign
is accepted at any position after an exponent marker with no intervening
sign; a sign while the flag is clear fails with InvalidNumberFormat. -/
theorem numScan_sign_flag_semantics :
    (∀ c cs buf, (c = '-' ∨ c = '+') →
      numScan (c :: cs) true buf = numScan cs false (buf ++ [c])) ∧
    (∀ c cs buf, (c = '-' ∨ c = '+') →
      numScan (c :: cs) false buf = .err (.InvalidNumberFormat signOnlyMsg)) ∧
    (∀ c cs buf es, (c = 'e' ∨ c = 'E') →
      numScan (c :: cs) es buf = numScan cs true (buf ++ [c])) ∧
    (∀ c cs buf es, '0' ≤ c ∧ c ≤ '9' →
      numScan (c :: cs) es buf = numScan cs es (buf ++ [c])) ∧
    (∀ cs buf es, numScan ('.' :: cs) es buf = numScan cs es (buf ++ ['.'])) := by
  refine ⟨?_, ?_, ?_, ?_, ?_⟩
  · intro c cs buf h
    rcases h with rfl | rfl <;> (rw [numScan.eq_def]; simp)
  · intro c cs buf h
    rcases h with rfl | rfl <;> (rw [numScan.eq_def]; simp)
  · intro c cs buf es h
    rcases h with rfl | rfl <;> (rw [numScan.eq_def]; simp)
  · intro c cs buf es h
    rw [numScan.eq_def]
    simp [h]
  · intro cs buf es
    rw [numScan.eq_def]
    simp

/-- Witness for claim C7 as amended: the sign branches at concrete inputs. -/
theorem numScan_sign_flag_semantics_witness :
    numScan ('-' :: ("3").toList) true [] = numScan (("3").toList) false ['-'] ∧
    numScan ('+' :: ("3").toList) false [] = .err (.InvalidNumberFormat signOnlyMsg) ∧
    numScan ('e' :: ("3").toList) false [] = numScan (("3").toList) true ['e'] ∧
    numScan ('7' :: ("3").toList) true [] = numScan (("3").toList) true ['7'] ∧
    numScan ('.' :: ("3").toList) true [] = numScan (("3").toList) true ['.'] :=
  ⟨numScan_sign_flag_semantics.1 '-' _ [] (Or.inl rfl),
    numScan_sign_flag_semantics.2.1 '+' _ [] (Or.inr rfl),
    numScan_sign_flag_semantics.2.2.1 'e' _ [] true (Or.inl rfl),
    numScan_sign_flag_semantics.2.2.2.1 '7' _ [] true (by decide),
    numScan_sign_flag_semantics.2.2.2.2 _ [] true⟩

/-- Claim C8 counterexample: a string literal whose content between the
quotes is a single raw tab parses successfully to the empty string, so the
rejection of raw control characters does not apply at every position. -/
theorem parse_raw_tab_string_succeeds :
    parse (("\"\x09\"").toList) = .ok (.String []) := rfl

/-- Claim C8 as amended: a raw unescaped line feed, carriage return, or tab
reaching the string scan loop is rejected as UnexpectedToken at every
position; however, when the entire content between the quotes is whitespace,
the whitespace-eating empty-string fast path consumes it and returns the
empty string without error. -/
theorem string_raw_ctrl_rejected_outside_ws_fastpath :
    (∀ c cs acc, (c = '\x0a' ∨ c = '\x0d' ∨ c = '\x09') →
      stringLoop (c :: cs) acc = .err (.UnexpectedToken (ctrlCharMsg c))) ∧
    (∀ ws rest, allWs ws = true →
      string ('"' :: (ws ++ '"' :: rest)) = .ok (.String [], rest)) := by
  refine ⟨?_, fun ws rest h => string_allws_fastpath ws rest h⟩
  intro c cs acc h
  rcases h with rfl | rfl | rfl <;> (rw [stringLoop.eq_def]; simp [ctrlCharMsg])

/-- Witness for claim C8 as amended: the loop rejects a raw line feed, and a
raw tab as entire string content takes the fast path. -/
theorem string_raw_ctrl_rejected_outside_ws_fastpath_witness :
    stringLoop ('\x0a' :: []) [] = .err (.UnexpectedToken (ctrlCharMsg '\x0a')) ∧
    allWs ['\x09'] = true ∧
    string ('"' :: (['\x09'] ++ '"' :: [])) = .ok (.String [], []) :=
  ⟨string_raw_ctrl_rejected_outside_ws_fastpath.1 '\x0a' [] [] (Or.inl rfl),
    rfl,
    string_raw_ctrl_rejected_outside_ws_fastpath.2 ['\x09'] [] rfl⟩

/-- Claim C9: the indexed accessors abort with a fatal invariant violation
(never a typed Error, which their result type excludes) on a wrong variant,
a missing key, or an out-of-range index, and return the child value on an
object with the key present or an array with the index in range. -/
theorem index_accessors_abort_on_contract_violation :
    (∀ v key, (∀ m, v ≠ .Object m) → indexKey v key = .violation) ∧
    (∀ m key, lookupIM m key = none → indexKey (.Object m) key = .violation) ∧
    (∀ m key x, lookupIM m key = some x → indexKey (.Object m) key = .ok x) ∧
    (∀ v i, (∀ a, v ≠ .Array a) → indexNat v i = .violation) ∧
    (∀ a i, a.get? i = none → indexNat (.Array a) i = .violation) ∧
    (∀ a i x, a.get? i = some x → indexNat (.Array a) i = .ok x) := by
  refine ⟨?_, ?_, ?_, ?_, ?_, ?_⟩
  · intro v key h
    cases v
    case Object m => exact absurd rfl (h m)
    all_goals rfl
  · intro m key h
    simp only [indexKey]
    rw [h]
  · intro m key x h
    simp only [indexKey]
    rw [h]
  · intro v i h
    cases v
    case Array a => exact absurd rfl (h a)
    all_goals rfl
  · intro a i h
    simp only [indexNat]
    rw [h]
  · intro a i x h
    simp only [indexNat]
    rw [h]

/-- Witness for claim C9 at concrete values. -/
theorem index_accessors_abort_on_contract_violation_witness :
    indexKey .Null (("a").toList) = .violation ∧
    indexKey (.Object [((("a").toList), .Null)]) (("b").toList) = .violation ∧
    indexKey (.Object [((("a").toList), .Boolean true)]) (("a").toList) = .ok (.Boolean true) ∧
    indexNat .Null 0 = .violation ∧
    indexNat (.Array [.Null]) 3 = .violation ∧
    indexNat (.Array [.Null]) 0 = .ok .Null :=
  ⟨index_accessors_abort_on_contract_violation.1 .Null _ (fun _ h => Value.noConfusion h),
    index_accessors_abort_on_contract_violation.2.1 _ _ rfl,
    index_accessors_abort_on_contract_violation.2.2.1 _ _ _ rfl,
    index_accessors_abort_on_contract_violation.2.2.2.1 .Null 0 (fun _ h => Value.noConfusion h),
    index_accessors_abort_on_contract_violation.2.2.2.2.1 [.Null] 3 rfl,
    index_accessors_abort_on_contract_violation.2.2.2.2.2 [.Null] 0 .Null rfl⟩

/-- Claim C10: a string literal whose content between the quotes is a
non-empty run of whitespace parses to the empty string (the content is
silently discarded), while plain content mixing whitespace with at least one
non-whitespace character is preserved verbatim. -/
theorem string_allws_content_parses_to_empty :
    (∀ ws, ws ≠ [] → allWs ws = true →
      parse ('"' :: (ws ++ ['"'])) = .ok (.String [])) ∧
    (∀ content rest, content.any (fun c => !is_whitespace c) = true →
      (∀ c ∈ content, c ≠ '"' ∧ c ≠ '\\' ∧ c ≠ '\x0a' ∧ c ≠ '\x0d' ∧ c ≠ '\x09') →
      string ('"' :: (content ++ '"' :: rest)) = .ok (.String content, rest)) := by
  constructor
  · intro ws _ hws
    simp only [parse]
    rw [show parseFuel ('"' :: (ws ++ ['"'])) =
      (3 * (('"' :: (ws ++ ['"'])).length) + 7) + 1 from rfl]
    rw [value_succ_quote _ ('"' :: (ws ++ ['"'])) (ws ++ ['"']) rfl]
    rw [string_allws_fastpath ws [] hws]
    rfl
  · intro content rest hany hplain
    have e1 : stripChar '"' (eat_whitespace ('"' :: (content ++ '"' :: rest))) =
        some (content ++ '"' :: rest) := rfl
    obtain ⟨c0, t0, hc0, hc0mem, _⟩ := eat_whitespace_cons_of_any content hany
    have e2 : eat_whitespace (content ++ '"' :: rest) = (c0 :: t0) ++ '"' :: rest := by
      rw [eat_whitespace_append_of_any content _ hany, hc0]
    have e3 : stripChar '"' (eat_whitespace (content ++ '"' :: rest)) = none := by
      rw [e2]
      show stripChar '"' (c0 :: (t0 ++ '"' :: rest)) = none
      simp [stripChar, (hplain c0 hc0mem).1]
    simp only [string, e1, e3]
    rw [stringLoop_plain content hplain rest []]
    rfl

/-- Witness for claim C10: a two-space string collapses to the empty string,
and a space-letter string is preserved. -/
theorem string_allws_content_parses_to_empty_witness :
    (("  ").toList ≠ []) ∧ allWs (("  ").toList) = true ∧
    parse ('"' :: ((("  ").toList) ++ ['"'])) = .ok (.String []) ∧
    ((" a").toList).any (fun c => !is_whitespace c) = true ∧
    string ('"' :: (((" a").toList) ++ '"' :: [])) = .ok (.String ((" a").toList), []) :=
  ⟨by decide, by decide,
    string_allws_content_parses_to_empty.1 (("  ").toList) (by decide) (by decide),
    by decide,
    string_allws_content_parses_to_empty.2 ((" a").toList) [] (by decide) (by decide)⟩

/-! Digit rendering and its inverse. -/

theorem digitsValAux_eq (l : List Char) :
    ∀ a, digitsValAux l a = a * 10 ^ l.length + digitsVal l := by
  induction l with
  | nil => intro a; simp [digitsValAux, digitsVal]
  | cons c cs ih =>
    intro a
    rw [digitsValAux, ih, digitsVal, ih, List.length_cons, pow_succ]
    ring

theorem digitChar_digit (d : Nat) (hd : d < 10) :
    '0' ≤ digitChar d ∧ digitChar d ≤ '9' := by
  interval_cases d <;> exact ⟨by decide, by decide⟩

theorem digitChar_val (d : Nat) (hd : d < 10) :
    (digitChar d).toNat - ('0').toNat = d := by
  interval_cases d <;> decide

theorem ndA_zero (f : Nat) (acc : List Char) : ndA f 0 acc = acc := by
  cases f <;> simp [ndA]

theorem ndA_val : ∀ f n acc, n ≤ f →
    digitsVal (ndA f n acc) = n * 10 ^ acc.length + digitsVal acc := by
  intro f
  induction f with
  | zero =>
    intro n acc hn
    interval_cases n
    simp [ndA]
  | succ f ih =>
    intro n acc hn
    by_cases h0 : n = 0
    · subst h0; simp [ndA]
    · rw [ndA, if_neg h0]
      have hdiv : n / 10 ≤ f := by
        have := Nat.div_lt_self (Nat.pos_of_ne_zero h0) (by omega : 1 < 10)
        omega
      rw [ih (n / 10) _ hdiv]
      have hc : digitsVal (digitChar (n % 10) :: acc) =
          (n % 10) * 10 ^ acc.length + digitsVal acc := by
        rw [digitsVal, digitsValAux_eq, digitChar_val _ (Nat.mod_lt _ (by omega))]
      rw [hc, List.length_cons, pow_succ]
      have hnm : n / 10 * 10 + n % 10 = n := by
        have := Nat.div_add_mod n 10
        omega
      have hkey : n / 10 * (10 ^ acc.length * 10) + n % 10 * 10 ^ acc.length =
          n * 10 ^ acc.length := by
        calc n / 10 * (10 ^ acc.length * 10) + n % 10 * 10 ^ acc.length
            = (n / 10 * 10 + n % 10) * 10 ^ acc.length := by ring
          _ = n * 10 ^ acc.length := by rw [hnm]
      omega

theorem natDigits_val (n : Nat) : digitsVal (natDigits n) = n := by
  by_cases h0 : n = 0
  · subst h0; decide
  · rw [natDigits, if_neg h0, ndA_val n n [] le_rfl]
    simp [digitsVal]

theorem ndA_all_digits : ∀ f n acc,
    (∀ c ∈ acc, '0' ≤ c ∧ c ≤ '9') →
    ∀ c ∈ ndA f n acc, '0' ≤ c ∧ c ≤ '9' := by
  intro f
  induction f with
  | zero => intro n acc hacc; simpa [ndA] using hacc
  | succ f ih =>
    intro n acc hacc
    by_cases h0 : n = 0
    · subst h0; simpa [ndA] using hacc
    · rw [ndA, if_neg h0]
      refine ih _ _ ?_
      intro c hc
      rcases List.mem_cons.mp hc with rfl | hc2
      · exact digitChar_digit _ (Nat.mod_lt _ (by omega))
      · exact hacc c hc2

theorem natDigits_all_digits (n : Nat) :
    ∀ c ∈ natDigits n, '0' ≤ c ∧ c ≤ '9' := by
  by_cases h0 : n = 0
  · subst h0; intro c hc; simp [natDigits] at hc; subst hc; exact ⟨by decide, by decide⟩
  · rw [natDigits, if_neg h0]
    exact ndA_all_digits n n [] (by simp)

theorem ndA_len_pos : ∀ f n acc, 0 < n → n ≤ f → 0 < (ndA f n acc).length := by
  intro f
  induction f with
  | zero => intro n acc hn hf; omega
  | succ f ih =>
    intro n acc hn hf
    rw [ndA, if_neg (by omega : ¬n = 0)]
    by_cases hq : n / 10 = 0
    · rw [hq, ndA_zero]; simp
    · exact ih _ _ (Nat.pos_of_ne_zero hq)
        (by
          have := Nat.div_lt_self hn (by omega : 1 < 10)
          omega)

theorem natDigits_ne_nil (n : Nat) : natDigits n ≠ [] := by
  by_cases h0 : n = 0
  · subst h0; simp [natDigits]
  · rw [natDigits, if_neg h0]
    have := ndA_len_pos n n [] (Nat.pos_of_ne_zero h0) le_rfl
    intro h
    rw [h] at this
    simp at this

theorem natDigits_head (n : Nat) :
    ∃ c t, natDigits n = c :: t ∧ '0' ≤ c ∧ c ≤ '9' := by
  cases h : natDigits n with
  | nil => exact absurd h (natDigits_ne_nil n)
  | cons c t =>
    have := natDigits_all_digits n c (by rw [h]; exact List.mem_cons_self c t)
    exact ⟨c, t, rfl, this⟩

/-! Character facts about digits. -/

theorem digit_facts (c : Char) (hc : '0' ≤ c ∧ c ≤ '9') :
    is_whitespace c = false ∧ c ≠ '-' ∧ c ≠ '"' ∧ c ≠ '\x7b' ∧ c ≠ '[' ∧
      c ≠ ']' ∧ c ≠ '\x7d' ∧ c ≠ ',' ∧ c ≠ 'f' ∧ c ≠ 'n' ∧ c ≠ 't' := by
  obtain ⟨h1, h2⟩ := hc
  refine ⟨?_, ?_, ?_, ?_, ?_, ?_, ?_, ?_, ?_, ?_, ?_⟩
  · rw [is_whitespace]
    have a1 : c ≠ '\x20' := fun h => by subst h; exact absurd h1 (by decide)
    have a2 : c ≠ '\x09' := fun h => by subst h; exact absurd h1 (by decide)
    have a3 : c ≠ '\x0a' := fun h => by subst h; exact absurd h1 (by decide)
    have a4 : c ≠ '\x0d' := fun h => by subst h; exact absurd h1 (by decide)
    simp [a1, a2, a3, a4]
  · exact fun h => by subst h; exact absurd h1 (by decide)
  · exact fun h => by subst h; exact absurd h1 (by decide)
  · exact fun h => by subst h; exact absurd h2 (by decide)
  · exact fun h => by subst h; exact absurd h2 (by decide)
  · exact fun h => by subst h; exact absurd h2 (by decide)
  · exact fun h => by subst h; exact absurd h2 (by decide)
  · exact fun h => by subst h; exact absurd h1 (by decide)
  · exact fun h => by subst h; exact absurd h2 (by decide)
  · exact fun h => by subst h; exact absurd h2 (by decide)
  · exact fun h => by subst h; exact absurd h2 (by decide)

/-! takeWhile and dropWhile over digit runs. -/

theorem takeWhile_all {p : Char → Bool} : ∀ l : List Char,
    (∀ c ∈ l, p c = true) → l.takeWhile p = l ∧ l.dropWhile p = [] := by
  intro l
  induction l with
  | nil => intro _; exact ⟨rfl, rfl⟩
  | cons c cs ih =>
    intro h
    have hc := h c (List.mem_cons_self c cs)
    have ht := ih (fun x hx => h x (List.mem_cons_of_mem _ hx))
    rw [List.takeWhile_cons, List.dropWhile_cons]
    rw [hc]
    simp only [if_true]
    exact ⟨by rw [ht.1], ht.2⟩

theorem takeWhile_append_stop {p : Char → Bool} : ∀ (a : List Char) (c : Char) (b : List Char),
    (∀ x ∈ a, p x = true) → p c = false →
    (a ++ c :: b).takeWhile p = a ∧ (a ++ c :: b).dropWhile p = c :: b := by
  intro a
  induction a with
  | nil =>
    intro c b _ hc
    rw [List.nil_append, List.takeWhile_cons, List.dropWhile_cons, hc]
    exact ⟨rfl, rfl⟩
  | cons x xs ih =>
    intro c b ha hc
    have hx := ha x (List.mem_cons_self x xs)
    obtain ⟨h1, h2⟩ := ih c b (fun y hy => ha y (List.mem_cons_of_mem _ hy)) hc
    rw [List.cons_append, List.takeWhile_cons, List.dropWhile_cons, hx]
    simp only [if_true]
    exact ⟨by rw [h1], h2⟩

/-! Steps of the number scanner over rendered digit runs. -/

theorem numScan_digits_chunk : ∀ (ds : List Char),
    (∀ c ∈ ds, '0' ≤ c ∧ c ≤ '9') →
    ∀ r es buf, numScan (ds ++ r) es buf = numScan r es (buf ++ ds) := by
  intro ds
  induction ds with
  | nil => intro _ r es buf; simp
  | cons c cs ih =>
    intro h r es buf
    have hc := h c (List.mem_cons_self c cs)
    rw [List.cons_append, numScan.eq_def]
    simp only [hc, and_self, if_true, ite_true]
    rw [ih (fun x hx => h x (List.mem_cons_of_mem _ hx)) r es (buf ++ [c])]
    rw [List.append_assoc]
    rfl

theorem numScan_stop : ∀ (r : List Char), scanStops r →
    ∀ es buf, numScan r es buf = .ok buf := by
  intro r hr es buf
  cases r with
  | nil => rw [numScan.eq_def]
  | cons c t =>
    obtain ⟨h1, h2, h3, h4, h5, h6⟩ := hr
    rw [numScan.eq_def]
    simp [h1, h2, h3, h4, h5, h6]

theorem numScan_e_step (cs buf : List Char) (es : Bool) :
    numScan ('e' :: cs) es buf = numScan cs true (buf ++ ['e']) := by
  rw [numScan.eq_def]
  simp

theorem numScan_minus_step (cs buf : List Char) :
    numScan ('-' :: cs) true buf = numScan cs false (buf ++ ['-']) := by
  rw [numScan.eq_def]
  simp

/-- Stripping a literal prefix off itself. -/
theorem stripLit_append : ∀ a b : List Char, stripLit a (a ++ b) = some b := by
  intro a
  induction a with
  | nil => intro b; rfl
  | cons c cs ih => intro b; simp [stripLit, ih]

/-! The exponent search. -/

theorem kOfAux_dvd : ∀ f d k, (∃ j, k ≤ j ∧ j < k + f ∧ d ∣ 10 ^ j) →
    d ∣ 10 ^ kOfAux f d k := by
  intro f
  induction f with
  | zero => intro d k h; obtain ⟨j, h1, h2, _⟩ := h; omega
  | succ f ih =>
    intro d k h
    by_cases hk : d ∣ 10 ^ k
    · rw [kOfAux, if_pos hk]; exact hk
    · rw [kOfAux, if_neg hk]
      refine ih d (k + 1) ?_
      obtain ⟨j, h1, h2, h3⟩ := h
      have : j ≠ k := fun he => hk (he ▸ h3)
      exact ⟨j, by omega, by omega, h3⟩

theorem kOf_dvd (d : Nat) (h : d ∣ 10 ^ d) : d ∣ 10 ^ kOf d := by
  exact kOfAux_dvd (d + 1) d 0 ⟨d, by omega, by omega, h⟩

/-! Algebra of `normQ`. -/

theorem normQ_gcd_ne (n : Int) (d : Nat) (hd : d ≠ 0) : Int.gcd n (Int.ofNat d) ≠ 0 := by
  intro h
  rw [Int.gcd_eq_zero_iff] at h
  exact hd (Int.ofNat_eq_zero.mp h.2)

theorem int_gcd_ofNat (n : Int) (d : Nat) : Int.gcd n (Int.ofNat d) = Nat.gcd n.natAbs d := by
  unfold Int.gcd
  simp

theorem normQ_reduced (n : Int) (d : Nat) (hd : d ≠ 0) :
    (normQ n d).den ≠ 0 ∧ Int.gcd (normQ n d).num (Int.ofNat (normQ n d).den) = 1 := by
  have hgne := normQ_gcd_ne n d hd
  rw [normQ]
  simp only [if_neg hgne]
  set g : Nat := Int.gcd n (Int.ofNat d) with hgdef
  have hgN : g = Nat.gcd n.natAbs d := by rw [hgdef, int_gcd_ofNat]
  have hgd : g ∣ d := by rw [hgN]; exact Nat.gcd_dvd_right _ _
  have hg0 : 0 < g := Nat.pos_of_ne_zero hgne
  obtain ⟨m, hm⟩ := (Int.gcd_dvd_left : (Int.ofNat (Int.gcd n (Int.ofNat d))) ∣ n)
  have hgz : (Int.ofNat g) ≠ 0 := fun h => hgne (Int.ofNat_eq_zero.mp h)
  have hnum : n / (Int.ofNat g) = m := by
    rw [show n = Int.ofNat g * m from hm]
    exact Int.mul_ediv_cancel_left m hgz
  have hden0 : d / g ≠ 0 := by
    have := Nat.div_pos (Nat.le_of_dvd (Nat.pos_of_ne_zero hd) hgd) hg0
    omega
  have hmabs : m.natAbs = n.natAbs / g := by
    have h1 : n.natAbs = g * m.natAbs := by
      rw [show n = Int.ofNat g * m from hm, Int.natAbs_mul,
        show (Int.ofNat g).natAbs = g from rfl]
    rw [h1, Nat.mul_div_cancel_left _ hg0]
  refine ⟨hden0, ?_⟩
  rw [hnum, int_gcd_ofNat, hmabs, hgN]
  exact Nat.coprime_div_gcd_div_gcd (hgN ▸ hg0)

theorem normQ_scale (a : Int) (d c : Nat) (hc : c ≠ 0) :
    normQ (a * Int.ofNat c) (d * c) = normQ a d := by
  have hgc : Int.gcd (a * Int.ofNat c) (Int.ofNat (d * c)) = Int.gcd a (Int.ofNat d) * c := by
    rw [int_gcd_ofNat, int_gcd_ofNat, Int.natAbs_mul,
      show (Int.ofNat c).natAbs = c from rfl]
    exact Nat.gcd_mul_right _ _ _
  rw [normQ, normQ]
  simp only [hgc]
  by_cases hg : Int.gcd a (Int.ofNat d) = 0
  · have h1 : Int.gcd a (Int.ofNat d) * c = 0 := by rw [hg, Nat.zero_mul]
    rw [if_pos h1, if_pos hg]
  · have hgc0 : Int.gcd a (Int.ofNat d) * c ≠ 0 := mul_ne_zero hg hc
    rw [if_neg hgc0, if_neg hg]
    have hcpos : (0 : ℤ) < Int.ofNat c := by
      rw [Int.ofNat_eq_natCast]
      exact_mod_cast Nat.pos_of_ne_zero hc
    congr 1
    · rw [show Int.ofNat (Int.gcd a (Int.ofNat d) * c) =
          Int.ofNat (Int.gcd a (Int.ofNat d)) * Int.ofNat c from rfl,
        mul_comm a (Int.ofNat c),
        mul_comm (Int.ofNat (Int.gcd a (Int.ofNat d))) (Int.ofNat c)]
      exact Int.mul_ediv_mul_of_pos _ _ hcpos
    · exact Nat.mul_div_mul_right _ _ (Nat.pos_of_ne_zero hc)

theorem normQ_of_reduced (a : Int) (d : Nat) (h : Int.gcd a (Int.ofNat d) = 1) :
    normQ a d = ⟨a, d⟩ := by
  rw [normQ]
  simp only [h, if_neg (by omega : ¬(1 : Nat) = 0)]
  congr 1
  · exact Int.ediv_one a
  · exact Nat.div_one d

/-! Evaluation of the float conversion on rendered digit runs. -/

theorem isDigit_of_bounds (c : Char) (h : '0' ≤ c ∧ c ≤ '9') : c.isDigit = true := by
  obtain ⟨h1, h2⟩ := h
  simp only [Char.isDigit]
  have g1 : c.val ≥ 48 := h1
  have g2 : c.val ≤ 57 := h2
  rw [decide_eq_true g1, decide_eq_true g2]
  rfl

theorem isEmpty_false_of_ne_nil {l : List Char} (h : l ≠ []) : l.isEmpty = false := by
  cases l with
  | nil => exact absurd rfl h
  | cons c t => rfl

theorem digitsVal_nil : digitsVal [] = 0 := rfl

theorem parseFloat_digits (ds : List Char) (hne : ds ≠ [])
    (hds : ∀ c ∈ ds, '0' ≤ c ∧ c ≤ '9') :
    parseFloat ds = some (normQ (Int.ofNat (digitsVal ds)) 1) := by
  obtain ⟨ht, hd⟩ := takeWhile_all ds (fun c hc => isDigit_of_bounds c (hds c hc))
  simp only [parseFloat, ht, hd, isEmpty_false_of_ne_nil hne]
  simp [digitsVal_nil]

theorem parseFloat_sci (M E : List Char) (hMne : M ≠ []) (hEne : E ≠ [])
    (hM : ∀ c ∈ M, '0' ≤ c ∧ c ≤ '9') (hE : ∀ c ∈ E, '0' ≤ c ∧ c ≤ '9') :
    parseFloat (M ++ 'e' :: '-' :: E) =
      some (normQ (Int.ofNat (digitsVal M)) (10 ^ digitsVal E)) := by
  obtain ⟨ht, hd⟩ := takeWhile_append_stop M 'e' ('-' :: E)
    (fun c hc => isDigit_of_bounds c (hM c hc)) (by decide)
  obtain ⟨htE, hdE⟩ := takeWhile_all E (fun c hc => isDigit_of_bounds c (hE c hc))
  have htE2 : List.takeWhile (fun c => c.isDigit) E = E := htE
  have hdE2 : List.dropWhile (fun c => c.isDigit) E = [] := hdE
  have hEd : ∀ x ∈ E, x.isDigit = true := fun c hc => isDigit_of_bounds c (hE c hc)
  have hElen : 0 < E.length := List.length_pos.mpr hEne
  have hE0 : E[0].isDigit = true := hEd _ (List.getElem_mem hElen)
  simp only [parseFloat, ht, hd, htE, hdE, isEmpty_false_of_ne_nil hMne,
    isEmpty_false_of_ne_nil hEne]
  simp [digitsVal_nil, htE2, hdE2, hEd, hElen, hE0, hEne]

/-! The scan and conversion on a rendered number body. -/

theorem numScan_render_digits (N : Nat) (rest : List Char) (hrest : scanStops rest) :
    numScan (natDigits N ++ rest) false [] = .ok (natDigits N) := by
  rw [numScan_digits_chunk (natDigits N) (natDigits_all_digits N) rest false [],
    numScan_stop rest hrest, List.nil_append]

theorem numScan_render_sci (N k : Nat) (rest : List Char) (hrest : scanStops rest) :
    numScan ((natDigits N ++ 'e' :: '-' :: natDigits k) ++ rest) false [] =
      .ok (natDigits N ++ 'e' :: '-' :: natDigits k) := by
  rw [List.append_assoc, List.cons_append, List.cons_append]
  rw [numScan_digits_chunk (natDigits N) (natDigits_all_digits N) _ false [],
    numScan_e_step, numScan_minus_step,
    numScan_digits_chunk (natDigits k) (natDigits_all_digits k) rest false _,
    numScan_stop rest hrest]
  congr 1
  simp

theorem numberTail_render_digits (N : Nat) (minus : Bool) (rest : List Char)
    (hrest : scanStops rest) :
    numberTail minus (natDigits N ++ rest) =
      .ok (.Number (if minus then mulQ (normQ (Int.ofNat N) 1) ⟨-1, 1⟩
        else normQ (Int.ofNat N) 1), rest) := by
  simp only [numberTail, numScan_render_digits N rest hrest]
  rw [stripLit_append]
  simp only [parseFloat_digits _ (natDigits_ne_nil N) (natDigits_all_digits N),
    natDigits_val]
  cases minus <;> simp

theorem numberTail_render_sci (N k : Nat) (minus : Bool) (rest : List Char)
    (hrest : scanStops rest) :
    numberTail minus ((natDigits N ++ 'e' :: '-' :: natDigits k) ++ rest) =
      .ok (.Number (if minus then mulQ (normQ (Int.ofNat N) (10 ^ k)) ⟨-1, 1⟩
        else normQ (Int.ofNat N) (10 ^ k)), rest) := by
  simp only [numberTail, numScan_render_sci N k rest hrest]
  rw [stripLit_append]
  simp only [parseFloat_sci (natDigits N) (natDigits k) (natDigits_ne_nil N)
    (natDigits_ne_nil k) (natDigits_all_digits N) (natDigits_all_digits k),
    natDigits_val]
  cases minus <;> simp

/-! The rendered number body converts back to the stored number. -/

theorem fmtNum_core_eval (q : Q) (hred : reducedQ q) (hrep : reprQ q) :
    normQ (Int.ofNat (q.num.natAbs * (10 ^ kOf q.den / q.den))) (10 ^ kOf q.den) =
      ⟨Int.ofNat q.num.natAbs, q.den⟩ := by
  obtain ⟨hd0, hgcd⟩ := hred
  have hdvd : q.den ∣ 10 ^ kOf q.den := kOf_dvd q.den hrep
  have hc : q.den * (10 ^ kOf q.den / q.den) = 10 ^ kOf q.den := Nat.mul_div_cancel' hdvd
  have h10 : 0 < 10 ^ kOf q.den := Nat.pos_pow_of_pos _ (by norm_num)
  have hcne : 10 ^ kOf q.den / q.den ≠ 0 := by
    intro h
    rw [h, Nat.mul_zero] at hc
    omega
  have key : normQ (Int.ofNat q.num.natAbs * Int.ofNat (10 ^ kOf q.den / q.den))
      (q.den * (10 ^ kOf q.den / q.den)) = normQ (Int.ofNat q.num.natAbs) q.den :=
    normQ_scale _ _ _ hcne
  rw [hc] at key
  have hg : Int.gcd (Int.ofNat q.num.natAbs) (Int.ofNat q.den) = 1 := by
    rw [int_gcd_ofNat]
    show Nat.gcd q.num.natAbs q.den = 1
    have h2 : Int.gcd q.num (Int.ofNat q.den) = 1 := hgcd
    rw [int_gcd_ofNat] at h2
    exact h2
  rw [show Int.ofNat (q.num.natAbs * (10 ^ kOf q.den / q.den)) =
      Int.ofNat q.num.natAbs * Int.ofNat (10 ^ kOf q.den / q.den) from rfl,
    key, normQ_of_reduced _ _ hg]

theorem mulQ_negate (q : Q) (hred : reducedQ q) (hn : q.num < 0) :
    mulQ ⟨Int.ofNat q.num.natAbs, q.den⟩ ⟨-1, 1⟩ = q := by
  obtain ⟨hd0, hgcd⟩ := hred
  show normQ (Int.ofNat q.num.natAbs * -1) (q.den * 1) = q
  have h1 : Int.ofNat q.num.natAbs * -1 = q.num := by
    have h2 : (q.num.natAbs : Int) = -q.num := by omega
    rw [show Int.ofNat q.num.natAbs = (q.num.natAbs : Int) from rfl, h2]
    ring
  have hg : Int.gcd q.num (Int.ofNat q.den) = 1 := hgcd
  rw [h1, Nat.mul_one, normQ_of_reduced _ _ hg]

theorem idQ_pos (q : Q) (hn : ¬ q.num < 0) :
    (⟨Int.ofNat q.num.natAbs, q.den⟩ : Q) = q := by
  have h1 : Int.ofNat q.num.natAbs = q.num := by
    have h2 : (q.num.natAbs : Int) = q.num := by omega
    exact h2
  rw [h1]

/-- Dispatch of `number` on an input with a non-whitespace head. -/
theorem number_nonws (c : Char) (t : List Char) (hws : is_whitespace c = false) :
    number (c :: t) = (if c = '-' then numberTail true t else numberTail false (c :: t)) := by
  have hew : eat_whitespace (c :: t) = c :: t := by
    rw [eat_whitespace.eq_def]
    simp [hws]
  by_cases hm : c = '-'
  · subst hm
    simp [number, hew, stripChar]
  · simp [number, hew, stripChar, hm]

theorem number_render (q : Q) (hred : reducedQ q) (hrep : reprQ q)
    (rest : List Char) (hrest : scanStops rest) :
    number (fmtNum q ++ rest) = .ok (.Number q, rest) := by
  have hcore := fmtNum_core_eval q hred hrep
  by_cases hn : q.num < 0
  · by_cases hk : kOf q.den = 0
    · have hfmt : fmtNum q = '-' :: natDigits (q.num.natAbs * (1 / q.den)) := by
        simp only [fmtNum]
        rw [if_pos hn, if_pos hk, hk, pow_zero]
      rw [hk, pow_zero] at hcore
      rw [hfmt, List.cons_append, number_nonws '-' _ (by decide), if_pos rfl,
        numberTail_render_digits (q.num.natAbs * (1 / q.den)) true rest hrest]
      rw [if_pos rfl, hcore, mulQ_negate q hred hn]
    · have hfmt : fmtNum q = '-' :: (natDigits (q.num.natAbs * (10 ^ kOf q.den / q.den))
          ++ 'e' :: '-' :: natDigits (kOf q.den)) := by
        simp only [fmtNum]
        rw [if_pos hn, if_neg hk]
      rw [hfmt, List.cons_append, number_nonws '-' _ (by decide), if_pos rfl,
        numberTail_render_sci _ (kOf q.den) true rest hrest]
      rw [if_pos rfl, hcore, mulQ_negate q hred hn]
  · by_cases hk : kOf q.den = 0
    · have hfmt : fmtNum q = natDigits (q.num.natAbs * (1 / q.den)) := by
        simp only [fmtNum]
        rw [if_neg hn, if_pos hk, hk, pow_zero]
      rw [hk, pow_zero] at hcore
      obtain ⟨c, t, hnd, hcd⟩ := natDigits_head (q.num.natAbs * (1 / q.den))
      obtain ⟨hws, hm, _⟩ := digit_facts c hcd
      rw [hfmt, hnd, List.cons_append, number_nonws c _ hws, if_neg hm,
        ← List.cons_append, ← hnd,
        numberTail_render_digits (q.num.natAbs * (1 / q.den)) false rest hrest]
      rw [if_neg (by decide : ¬false = true), hcore, idQ_pos q hn]
    · have hfmt : fmtNum q = natDigits (q.num.natAbs * (10 ^ kOf q.den / q.den))
          ++ 'e' :: '-' :: natDigits (kOf q.den) := by
        simp only [fmtNum]
        rw [if_neg hn, if_neg hk]
      obtain ⟨c, t, hnd, hcd⟩ := natDigits_head (q.num.natAbs * (10 ^ kOf q.den / q.den))
      obtain ⟨hws, hm, _⟩ := digit_facts c hcd
      rw [hfmt, hnd, List.cons_append, List.cons_append, number_nonws c _ hws, if_neg hm,
        ← List.cons_append, ← List.cons_append, ← hnd,
        numberTail_render_sci _ (kOf q.den) false rest hrest]
      rw [if_neg (by decide : ¬false = true), hcore, idQ_pos q hn]

/-! The rendered string body decodes back to the stored string. -/

theorem eat_whitespace_cons_nws (c : Char) (t : List Char) (h : is_whitespace c = false) :
    eat_whitespace (c :: t) = c :: t := by
  rw [eat_whitespace.eq_def]
  simp [h]

theorem stringLoop_esc_step (c : Char) (tail acc : List Char) :
    stringLoop (escChar c ++ tail) acc = stringLoop tail (acc ++ [c]) := by
  by_cases h1 : c = '"'
  · subst h1
    rw [show escChar '"' = ['\\', '"'] from by decide]
    simp only [List.cons_append, List.nil_append]
    rw [stringLoop.eq_def]
    simp
  · by_cases h2 : c = '\\'
    · subst h2
      rw [show escChar '\\' = ['\\', '\\'] from by decide]
      simp only [List.cons_append, List.nil_append]
      rw [stringLoop.eq_def]
      simp
    · by_cases h3 : c = '\x08'
      · subst h3
        rw [show escChar '\x08' = ['\\', 'b'] from by decide]
        simp only [List.cons_append, List.nil_append]
        rw [stringLoop.eq_def]
        simp
      · by_cases h4 : c = '\x0C'
        · subst h4
          rw [show escChar '\x0C' = ['\\', 'f'] from by decide]
          simp only [List.cons_append, List.nil_append]
          rw [stringLoop.eq_def]
          simp
        · by_cases h5 : c = '\x0a'
          · subst h5
            rw [show escChar '\x0a' = ['\\', 'n'] from by decide]
            simp only [List.cons_append, List.nil_append]
            rw [stringLoop.eq_def]
            simp
          · by_cases h6 : c = '\x0d'
            · subst h6
              rw [show escChar '\x0d' = ['\\', 'r'] from by decide]
              simp only [List.cons_append, List.nil_append]
              rw [stringLoop.eq_def]
              simp
            · by_cases h7 : c = '\x09'
              · subst h7
                rw [show escChar '\x09' = ['\\', 't'] from by decide]
                simp only [List.cons_append, List.nil_append]
                rw [stringLoop.eq_def]
                simp
              · rw [escChar, if_neg h1, if_neg h2, if_neg h3, if_neg h4, if_neg h5,
                  if_neg h6, if_neg h7]
                show stringLoop (c :: tail) acc = _
                exact stringLoop_cons_plain c tail acc h1 h2 h5 h6 h7

theorem stringLoop_escString (s : List Char) : ∀ rest acc,
    stringLoop (escString s ++ '"' :: rest) acc = .ok (acc ++ s, rest) := by
  induction s with
  | nil =>
    intro rest acc
    simp only [escString, List.nil_append, List.append_nil]
    rw [stringLoop.eq_def]
    simp
  | cons c cs ih =>
    intro rest acc
    rw [escString, List.append_assoc, stringLoop_esc_step, ih, List.append_assoc]
    rfl

theorem escChar_head (c : Char) (hc : c ≠ ' ') :
    ∃ d t0, escChar c = d :: t0 ∧ is_whitespace d = false ∧ d ≠ '"' := by
  rw [escChar]
  by_cases h1 : c = '"'
  · rw [if_pos h1]; exact ⟨'\\', _, rfl, by decide, by decide⟩
  · rw [if_neg h1]
    by_cases h2 : c = '\\'
    · rw [if_pos h2]; exact ⟨'\\', _, rfl, by decide, by decide⟩
    · rw [if_neg h2]
      by_cases h3 : c = '\x08'
      · rw [if_pos h3]; exact ⟨'\\', _, rfl, by decide, by decide⟩
      · rw [if_neg h3]
        by_cases h4 : c = '\x0C'
        · rw [if_pos h4]; exact ⟨'\\', _, rfl, by decide, by decide⟩
        · rw [if_neg h4]
          by_cases h5 : c = '\x0a'
          · rw [if_pos h5]; exact ⟨'\\', _, rfl, by decide, by decide⟩
          · rw [if_neg h5]
            by_cases h6 : c = '\x0d'
            · rw [if_pos h6]; exact ⟨'\\', _, rfl, by decide, by decide⟩
            · rw [if_neg h6]
              by_cases h7 : c = '\x09'
              · rw [if_pos h7]; exact ⟨'\\', _, rfl, by decide, by decide⟩
              · rw [if_neg h7]
                refine ⟨c, [], rfl, ?_, h1⟩
                simp [is_whitespace, hc, h5, h6, h7]

theorem escString_split : ∀ s : List Char, (∃ c ∈ s, c ≠ ' ') →
    ∃ pre d t', escString s = pre ++ d :: t' ∧ allWs pre = true ∧
      is_whitespace d = false ∧ d ≠ '"' := by
  intro s
  induction s with
  | nil => intro h; simp at h
  | cons c cs ih =>
    intro h
    by_cases hc : c = ' '
    · subst hc
      have hcs : ∃ x ∈ cs, x ≠ ' ' := by
        obtain ⟨x, hx, hxne⟩ := h
        rcases List.mem_cons.mp hx with he | hm
        · exact absurd he hxne
        · exact ⟨x, hm, hxne⟩
      obtain ⟨pre, d, t', h1, h2, h3, h4⟩ := ih hcs
      refine ⟨' ' :: pre, d, t', ?_, ?_, h3, h4⟩
      · rw [escString, h1, show escChar ' ' = [' '] from by decide]
        rfl
      · simp only [allWs, List.all_cons, Bool.and_eq_true]
        exact ⟨by decide, h2⟩
    · obtain ⟨d, t0, he, hdw, hdq⟩ := escChar_head c hc
      refine ⟨[], d, t0 ++ escString cs, ?_, rfl, hdw, hdq⟩
      rw [escString, he]
      rfl

theorem string_render (s : List Char) (hs : strOK s) (rest : List Char) :
    string ('"' :: (escString s ++ '"' :: rest)) = .ok (.String s, rest) := by
  cases hs with
  | inl h =>
    subst h
    have h1 : eat_whitespace ('"' :: '"' :: rest) = '"' :: '"' :: rest :=
      eat_whitespace_cons_nws _ _ (by decide)
    have h2 : eat_whitespace ('"' :: rest) = '"' :: rest :=
      eat_whitespace_cons_nws _ _ (by decide)
    simp only [escString, List.nil_append, string, h1, h2, stripChar,
      eq_self_iff_true, if_true]
  | inr h =>
    obtain ⟨pre, d, t', hesc, hpre, hdws, hdq⟩ := escString_split s h
    have hcur : eat_whitespace (escString s ++ '"' :: rest) = d :: (t' ++ '"' :: rest) := by
      rw [hesc, List.append_assoc, List.cons_append,
        eat_whitespace_allws_append pre _ hpre,
        eat_whitespace_cons_nws d _ hdws]
    have hout : eat_whitespace ('"' :: (escString s ++ '"' :: rest)) =
        '"' :: (escString s ++ '"' :: rest) := eat_whitespace_cons_nws _ _ (by decide)
    simp only [string, hout, stripChar, eq_self_iff_true, if_true, hcur, if_neg hdq,
      stringLoop_escString s rest [], List.nil_append]

/-! Dispatch lemmas for the `value` entry on rendered heads. -/

theorem value_succ_congr (n : Nat) (a b : List Char)
    (h : eat_whitespace a = eat_whitespace b) :
    value (n + 1) a = value (n + 1) b := by
  simp only [value, h]

theorem value_succ_false (n : Nat) (input rest : List Char)
    (h : eat_whitespace input = ("false").toList ++ rest) :
    value (n + 1) input = .ok (.Boolean false, rest) := by
  simp only [value]
  rw [h]
  rfl

theorem value_succ_null (n : Nat) (input rest : List Char)
    (h : eat_whitespace input = ("null").toList ++ rest) :
    value (n + 1) input = .ok (.Null, rest) := by
  simp only [value]
  rw [h]
  rfl

theorem value_succ_true (n : Nat) (input rest : List Char)
    (h : eat_whitespace input = ("true").toList ++ rest) :
    value (n + 1) input = .ok (.Boolean true, rest) := by
  simp only [value]
  rw [h]
  rfl

theorem value_succ_lbrace (n : Nat) (input t : List Char)
    (h : eat_whitespace input = '\x7b' :: t) :
    value (n + 1) input = object n ('\x7b' :: t) := by
  simp only [value]
  rw [h]
  rfl

theorem value_succ_lbrack (n : Nat) (input t : List Char)
    (h : eat_whitespace input = '[' :: t) :
    value (n + 1) input = array n ('[' :: t) := by
  simp only [value]
  rw [h]
  rfl

theorem value_succ_num (n : Nat) (input : List Char) (c : Char) (t : List Char)
    (h : eat_whitespace input = c :: t)
    (hd : c = '-' ∨ c.isDigit = true)
    (hf : c ≠ 'f') (hn : c ≠ 'n') (ht : c ≠ 't')
    (hlb : c ≠ '\x7b') (hlk : c ≠ '[') (hq : c ≠ '"') :
    value (n + 1) input = number (c :: t) := by
  simp only [value]
  rw [h,
    show ("false").toList = 'f' :: ['a', 'l', 's', 'e'] from rfl,
    show ("null").toList = 'n' :: ['u', 'l', 'l'] from rfl,
    show ("true").toList = 't' :: ['r', 'u', 'e'] from rfl]
  rw [show stripLit ('f' :: ['a', 'l', 's', 'e']) (c :: t) = none from by
    rw [stripLit.eq_def]; simp [hf]]
  rw [show stripLit ('n' :: ['u', 'l', 'l']) (c :: t) = none from by
    rw [stripLit.eq_def]; simp [hn]]
  rw [show stripLit ('t' :: ['r', 'u', 'e']) (c :: t) = none from by
    rw [stripLit.eq_def]; simp [ht]]
  rw [show startsWith '\x7b' (c :: t) = false from by simp [startsWith, hlb]]
  rw [show startsWith '[' (c :: t) = false from by simp [startsWith, hlk]]
  rw [show startsWith '"' (c :: t) = false from by simp [startsWith, hq]]
  have hb : (startsWith '-' (c :: t) || headIsDigit (c :: t)) = true := by
    rcases hd with hd | hd
    · subst hd; simp [startsWith]
    · simp [startsWith, headIsDigit, hd]
  rw [hb]
  rfl

/-! Miscellaneous facts for the round-trip induction. -/

theorem needFuel_pos (v : Value) : 1 ≤ needFuel v := by
  cases v with
  | String s => exact Nat.le_refl 1
  | Number q => exact Nat.le_refl 1
  | Boolean b => exact Nat.le_refl 1
  | Null => exact Nat.le_refl 1
  | Object m =>
    cases m with
    | nil =>
      show (1 : Nat) ≤ 2
      omega
    | cons p t =>
      show (1 : Nat) ≤ 2 + needFuelM (p :: t)
      omega
  | Array l =>
    cases l with
    | nil =>
      show (1 : Nat) ≤ 2
      omega
    | cons v t =>
      show (1 : Nat) ≤ 2 + needFuel v + needFuelE t
      omega

theorem scanStops_cons (c : Char) (t : List Char)
    (h : ¬('0' ≤ c ∧ c ≤ '9') ∧ c ≠ '.' ∧ c ≠ 'e' ∧ c ≠ 'E' ∧ c ≠ '-' ∧ c ≠ '+') :
    scanStops (c :: t) := h

theorem insertIM_append (obj : List (List Char × Value)) (k : List Char) (v : Value)
    (h : ¬ k ∈ keysOf obj) : insertIM obj k v = obj ++ [(k, v)] := by
  induction obj with
  | nil => rfl
  | cons p t ih =>
    obtain ⟨k0, v0⟩ := p
    have hne : k0 ≠ k := by
      intro he
      subst he
      exact h (List.mem_cons_self _ _)
    rw [insertIM, if_neg hne, List.cons_append,
      ih (fun hm => h (List.mem_cons_of_mem _ hm))]

theorem allWs_indent (n : Nat) : allWs (indentChars n) = true := by
  simp only [allWs, indentChars, List.all_eq_true]
  intro x hx
  rw [List.eq_of_mem_replicate hx]
  decide

theorem allWs_nl_indent (n : Nat) : allWs ('\x0a' :: indentChars n) = true := by
  rw [show allWs ('\x0a' :: indentChars n) =
      (is_whitespace '\x0a' && allWs (indentChars n)) from rfl,
    show is_whitespace '\x0a' = true from by decide, Bool.true_and]
  exact allWs_indent n

/-! The reduced-fraction invariant of parsed numbers. -/

theorem reducedQ_normQ (n : Int) (d : Nat) (hd : d ≠ 0) : reducedQ (normQ n d) := by
  obtain ⟨h1, h2⟩ := normQ_reduced n d hd
  exact ⟨h1, h2⟩

theorem parseFloat_reduced (s : List Char) (q : Q) (h : parseFloat s = some q) :
    reducedQ q := by
  simp only [parseFloat] at h
  split at h
  · exact absurd h (by simp)
  · split at h
    · simp only [Option.some.injEq] at h
      subst h
      exact reducedQ_normQ _ _ (Nat.pos_pow_of_pos _ (by norm_num)).ne'
    · split at h
      · split at h
        · exact absurd h (by simp)
        · split at h
          · simp only [Option.some.injEq] at h
            subst h
            refine reducedQ_normQ _ _ ?_
            exact Nat.mul_ne_zero
              (Nat.pos_pow_of_pos _ (by norm_num)).ne'
              (Nat.pos_pow_of_pos _ (by norm_num)).ne'
          · simp only [Option.some.injEq] at h
            subst h
            exact reducedQ_normQ _ _ (Nat.pos_pow_of_pos _ (by norm_num)).ne'
      · exact absurd h (by simp)

theorem anum_obj (P : Q → Prop) (m : List (List Char × Value)) :
    allNums P (.Object m) ↔ allNumsP P m := Iff.rfl

theorem anum_arr (P : Q → Prop) (vs : List Value) :
    allNums P (.Array vs) ↔ allNumsL P vs := Iff.rfl

theorem anumP_cons (P : Q → Prop) (k : List Char) (v : Value)
    (t : List (List Char × Value)) :
    allNumsP P ((k, v) :: t) ↔ allNums P v ∧ allNumsP P t := Iff.rfl

theorem anumL_cons (P : Q → Prop) (v : Value) (t : List Value) :
    allNumsL P (v :: t) ↔ allNums P v ∧ allNumsL P t := Iff.rfl

theorem anum_insertIM (P : Q → Prop) (m : List (List Char × Value)) (k : List Char)
    (v : Value) (hm : allNumsP P m) (hv : allNums P v) : allNumsP P (insertIM m k v) := by
  induction m with
  | nil => exact (anumP_cons P k v []).mpr ⟨hv, trivial⟩
  | cons p t ih =>
    obtain ⟨k0, v0⟩ := p
    obtain ⟨h1, h2⟩ := (anumP_cons P k0 v0 t).mp hm
    by_cases h : k0 = k
    · rw [insertIM, if_pos h]
      exact (anumP_cons P k0 v t).mpr ⟨hv, h2⟩
    · rw [insertIM, if_neg h]
      exact (anumP_cons P k0 v0 _).mpr ⟨h1, ih h2⟩

theorem anumL_append_one (P : Q → Prop) (vs : List Value) (v : Value)
    (hl : allNumsL P vs) (hv : allNums P v) : allNumsL P (vs ++ [v]) := by
  induction vs with
  | nil => exact (anumL_cons P v []).mpr ⟨hv, trivial⟩
  | cons x t ih =>
    obtain ⟨h1, h2⟩ := (anumL_cons P x t).mp hl
    rw [List.cons_append]
    exact (anumL_cons P x _).mpr ⟨h1, ih h2⟩

theorem numberTail_reduced (minus : Bool) (cur : List Char) (v : Value) (rest : List Char)
    (h : numberTail minus cur = .ok (v, rest)) : ∃ q, v = .Number q ∧ reducedQ q := by
  simp only [numberTail] at h
  split at h
  · split at h
    · exact absurd h (by simp)
    · split at h
      · exact absurd h (by simp)
      · rename_i q hpf
        have hq := parseFloat_reduced _ _ hpf
        split at h
        · simp only [PResult.ok.injEq, Prod.mk.injEq] at h
          obtain ⟨h1, h2⟩ := h
          refine ⟨mulQ q ⟨-1, 1⟩, h1.symm, ?_⟩
          exact reducedQ_normQ _ _ (Nat.mul_ne_zero hq.1 one_ne_zero)
        · simp only [PResult.ok.injEq, Prod.mk.injEq] at h
          obtain ⟨h1, h2⟩ := h
          exact ⟨q, h1.symm, hq⟩
  · exact absurd h (by simp)
  · exact absurd h (by simp)
  · exact absurd h (by simp)

theorem number_reduced (input : List Char) (v : Value) (rest : List Char)
    (h : number input = .ok (v, rest)) : ∃ q, v = .Number q ∧ reducedQ q := by
  simp only [number] at h
  split at h
  · exact numberTail_reduced _ _ _ _ h
  · exact numberTail_reduced _ _ _ _ h

/-- Mutual induction over the fueled parser: every successfully parsed value
carries only reduced number fractions, with accumulator invariants for the
two loops. -/
theorem parserNum : ∀ n : Nat,
    (∀ input v rest, value n input = .ok (v, rest) → allNums reducedQ v) ∧
    (∀ input v rest, object n input = .ok (v, rest) → allNums reducedQ v) ∧
    (∀ obj cur v rest, allNumsP reducedQ obj →
      objLoop n obj cur = .ok (v, rest) → allNums reducedQ v) ∧
    (∀ input v rest, array n input = .ok (v, rest) → allNums reducedQ v) ∧
    (∀ vs cur v rest, allNumsL reducedQ vs →
      arrLoop n vs cur = .ok (v, rest) → allNums reducedQ v) := by
  intro n
  induction n with
  | zero =>
    refine ⟨?_, ?_, ?_, ?_, ?_⟩ <;> intros <;> simp_all [value, object, objLoop, array, arrLoop]
  | succ n ih =>
    obtain ⟨ihv, iho, ihol, iha, ihal⟩ := ih
    have hval : ∀ input v rest, value (n + 1) input = .ok (v, rest) → allNums reducedQ v := by
      intro input v rest h
      simp only [value] at h
      split at h
      · cases h; trivial
      · split at h
        · cases h; trivial
        · split at h
          · cases h; trivial
          · split at h
            · exact iho _ _ _ h
            · split at h
              · exact iha _ _ _ h
              · split at h
                · obtain ⟨s, rfl⟩ := string_shape _ _ _ h
                  trivial
                · split at h
                  · obtain ⟨q, rfl, hq⟩ := number_reduced _ _ _ h
                    exact hq
                  · exact absurd h (by simp)
    have hobjLoop : ∀ obj cur v rest, allNumsP reducedQ obj →
        objLoop (n + 1) obj cur = .ok (v, rest) → allNums reducedQ v := by
      intro obj cur v rest hps h
      simp only [objLoop] at h
      split at h
      · rename_i key restk heqs
        split at h
        · exact absurd h (by simp)
        · rename_i cur2 hcolon
          split at h
          · rename_i v2 rest2 heqv
            have hv2 : allNums reducedQ v2 := ihv _ _ _ heqv
            split at h
            · exact ihol _ _ _ _ (anum_insertIM _ _ _ _ hps hv2) h
            · split at h
              · cases h
                exact (anum_obj _ _).mpr (anum_insertIM _ _ _ _ hps hv2)
              · exact absurd h (by simp)
          · exact absurd h (by simp)
          · exact absurd h (by simp)
          · exact absurd h (by simp)
      · exact absurd h (by simp)
      · exact absurd h (by simp)
      · exact absurd h (by simp)
      · exact absurd h (by simp)
    have hobj : ∀ input v rest, object (n + 1) input = .ok (v, rest) → allNums reducedQ v := by
      intro input v rest h
      simp only [object] at h
      split at h
      · exact absurd h (by simp)
      · split at h
        · cases h
          exact (anum_obj _ _).mpr trivial
        · exact ihol _ _ _ _ (show allNumsP reducedQ [] from trivial) h
    have harrLoop : ∀ vs cur v rest, allNumsL reducedQ vs →
        arrLoop (n + 1) vs cur = .ok (v, rest) → allNums reducedQ v := by
      intro vs cur v rest hl h
      simp only [arrLoop] at h
      split at h
      · split at h
        · rename_i v2 rest2 heqv
          exact ihal _ _ _ _ (anumL_append_one _ _ _ hl (ihv _ _ _ heqv)) h
        · exact absurd h (by simp)
        · exact absurd h (by simp)
        · exact absurd h (by simp)
      · split at h
        · cases h; exact (anum_arr _ _).mpr hl
        · exact absurd h (by simp)
    have harr : ∀ input v rest, array (n + 1) input = .ok (v, rest) → allNums reducedQ v := by
      intro input v rest h
      simp only [array] at h
      split at h
      · exact absurd h (by simp)
      · split at h
        · cases h; exact (anum_arr _ _).mpr trivial
        · split at h
          · rename_i v2 rest2 heqv
            exact ihal _ _ _ _
              ((anumL_cons _ _ _).mpr
                ⟨ihv _ _ _ heqv, show allNumsL reducedQ [] from trivial⟩) h
          · exact absurd h (by simp)
          · exact absurd h (by simp)
          · exact absurd h (by simp)
    exact ⟨hval, hobj, hobjLoop, harr, harrLoop⟩

/-! Head characters of renderings. -/

theorem fmtNum_head (q : Q) :
    ∃ c t, fmtNum q = c :: t ∧ (c = '-' ∨ ('0' ≤ c ∧ c ≤ '9')) := by
  by_cases hn : q.num < 0
  · have hfmt : fmtNum q = '-' :: (if kOf q.den = 0 then
        natDigits (q.num.natAbs * (10 ^ kOf q.den / q.den))
      else natDigits (q.num.natAbs * (10 ^ kOf q.den / q.den)) ++
        ('e' :: '-' :: natDigits (kOf q.den))) := by
      simp only [fmtNum]
      rw [if_pos hn]
    exact ⟨'-', _, hfmt, Or.inl rfl⟩
  · by_cases hk : kOf q.den = 0
    · obtain ⟨c, t, hnd, hcd⟩ := natDigits_head (q.num.natAbs * (10 ^ kOf q.den / q.den))
      refine ⟨c, t, ?_, Or.inr hcd⟩
      simp only [fmtNum]
      rw [if_neg hn, if_pos hk, hnd]
    · obtain ⟨c, t, hnd, hcd⟩ := natDigits_head (q.num.natAbs * (10 ^ kOf q.den / q.den))
      refine ⟨c, t ++ ('e' :: '-' :: natDigits (kOf q.den)), ?_, Or.inr hcd⟩
      simp only [fmtNum]
      rw [if_neg hn, if_neg hk, hnd, List.cons_append]

theorem fmtV_head (v : Value) (d iw : Nat) :
    ∃ c t, fmtV v d iw = c :: t ∧ is_whitespace c = false ∧
      c ≠ ']' ∧ c ≠ '\x7d' ∧ c ≠ ',' := by
  cases v with
  | String s => exact ⟨'"', _, rfl, by decide, by decide, by decide, by decide⟩
  | Number q =>
    obtain ⟨c, t, hf, hc⟩ := fmtNum_head q
    rcases hc with hc | hc
    · subst hc
      exact ⟨'-', t, hf, by decide, by decide, by decide, by decide⟩
    · obtain ⟨hws, _, _, _, _, _, h7d, hcm, _⟩ := digit_facts c hc
      exact ⟨c, t, hf, hws, (digit_facts c hc).2.2.2.2.2.1, h7d, hcm⟩
  | Boolean b =>
    cases b with
    | true => exact ⟨'t', _, rfl, by decide, by decide, by decide, by decide⟩
    | false => exact ⟨'f', _, rfl, by decide, by decide, by decide, by decide⟩
  | Null => exact ⟨'n', _, rfl, by decide, by decide, by decide, by decide⟩
  | Object m =>
    cases m with
    | nil => exact ⟨'\x7b', _, rfl, by decide, by decide, by decide, by decide⟩
    | cons p ps => exact ⟨'\x7b', _, rfl, by decide, by decide, by decide, by decide⟩
  | Array l =>
    cases l with
    | nil => exact ⟨'[', _, rfl, by decide, by decide, by decide, by decide⟩
    | cons v vs => exact ⟨'[', _, rfl, by decide, by decide, by decide, by decide⟩

/-! The member loop re-parses a rendered member list. -/

theorem objLoop_render (iw d : Nat) (rest : List Char) (hrest : scanStops rest) :
    ∀ (ms obj : List (List Char × Value)) (n : Nat) (pre : List Char),
      ms ≠ [] →
      allWs pre = true →
      (∀ p ∈ ms, strOK p.1 ∧ RP p.2) →
      (keysOf (obj ++ ms)).Nodup →
      needFuelM ms ≤ n →
      objLoop n obj (pre ++ (fmtMembers ms (d + 1) iw ++
        ('\x0a' :: (indentChars (d * iw) ++ ('\x7d' :: rest))))) =
        .ok (.Object (obj ++ ms), rest) := by
  intro ms
  induction ms with
  | nil => intro obj n pre hne; exact absurd rfl hne
  | cons kv ms' ih =>
    obtain ⟨k, v⟩ := kv
    intro obj n pre hne hpre hmem hnd hfuel
    obtain ⟨hk0, hRPv0⟩ := hmem (k, v) (List.mem_cons_self _ _)
    have hk : strOK k := hk0
    have hRPv : RP v := hRPv0
    have hf1 : 1 + needFuel v + needFuelM ms' ≤ n := hfuel
    have hvpos := needFuel_pos v
    obtain ⟨n1, rfl⟩ : ∃ n1, n = n1 + 1 := ⟨n - 1, by omega⟩
    obtain ⟨n2, hn1⟩ : ∃ n2, n1 = n2 + 1 := ⟨n1 - 1, by omega⟩
    have hnotin : ¬ k ∈ keysOf obj := by
      have h1 : (keysOf obj ++ keysOf ((k, v) :: ms')).Nodup := by
        rw [show keysOf obj ++ keysOf ((k, v) :: ms') = keysOf (obj ++ (k, v) :: ms') from
          (List.map_append _ _ _).symm]
        exact hnd
      intro hk0
      exact List.disjoint_of_nodup_append h1 hk0 (List.mem_cons_self _ _)
    have hewC : eat_whitespace ('\x0a' :: (indentChars (d * iw) ++ ('\x7d' :: rest))) =
        '\x7d' :: rest := by
      rw [show ('\x0a' :: (indentChars (d * iw) ++ ('\x7d' :: rest)) : List Char) =
          ('\x0a' :: indentChars (d * iw)) ++ ('\x7d' :: rest) from rfl,
        eat_whitespace_allws_append _ _ (allWs_nl_indent _),
        eat_whitespace_cons_nws _ _ (by decide)]
    have hcomma0 : stripChar ',' (eat_whitespace
        ('\x0a' :: (indentChars (d * iw) ++ ('\x7d' :: rest)))) = none := by
      rw [hewC]; rfl
    have hbrace : stripChar '\x7d' (eat_whitespace
        ('\x0a' :: (indentChars (d * iw) ++ ('\x7d' :: rest)))) = some rest := by
      rw [hewC]; rfl
    cases ms' with
    | nil =>
      have stage1 : pre ++ (fmtMembers [(k, v)] (d + 1) iw ++
          ('\x0a' :: (indentChars (d * iw) ++ ('\x7d' :: rest)))) =
          pre ++ (indentChars ((d + 1) * iw) ++ ('"' :: (escString k ++ ('"' :: (':' :: ' ' ::
            (fmtV v (d + 1) iw ++
              ('\x0a' :: (indentChars (d * iw) ++ ('\x7d' :: rest))))))))) := by
        simp only [fmtMembers, List.append_assoc, List.cons_append]
      have hew : eat_whitespace (pre ++ (fmtMembers [(k, v)] (d + 1) iw ++
          ('\x0a' :: (indentChars (d * iw) ++ ('\x7d' :: rest))))) =
          '"' :: (escString k ++ ('"' :: (':' :: ' ' :: (fmtV v (d + 1) iw ++
            ('\x0a' :: (indentChars (d * iw) ++ ('\x7d' :: rest))))))) := by
        rw [stage1, eat_whitespace_allws_append pre _ hpre,
          eat_whitespace_allws_append _ _ (allWs_indent _),
          eat_whitespace_cons_nws _ _ (by decide)]
      have hstr : string (eat_whitespace (pre ++ (fmtMembers [(k, v)] (d + 1) iw ++
          ('\x0a' :: (indentChars (d * iw) ++ ('\x7d' :: rest)))))) =
          .ok (.String k, ':' :: ' ' :: (fmtV v (d + 1) iw ++
            ('\x0a' :: (indentChars (d * iw) ++ ('\x7d' :: rest))))) := by
        rw [hew]
        exact string_render k hk _
      have hcolon : stripChar ':' (eat_whitespace (':' :: ' ' :: (fmtV v (d + 1) iw ++
          ('\x0a' :: (indentChars (d * iw) ++ ('\x7d' :: rest)))))) =
          some (' ' :: (fmtV v (d + 1) iw ++
            ('\x0a' :: (indentChars (d * iw) ++ ('\x7d' :: rest))))) := by
        rw [eat_whitespace_cons_nws _ _ (by decide)]
        rfl
      have hval : value n1 (' ' :: (fmtV v (d + 1) iw ++
          ('\x0a' :: (indentChars (d * iw) ++ ('\x7d' :: rest))))) =
          .ok (v, '\x0a' :: (indentChars (d * iw) ++ ('\x7d' :: rest))) := by
        rw [hn1, value_succ_congr n2
          (' ' :: (fmtV v (d + 1) iw ++
            ('\x0a' :: (indentChars (d * iw) ++ ('\x7d' :: rest)))))
          (fmtV v (d + 1) iw ++
            ('\x0a' :: (indentChars (d * iw) ++ ('\x7d' :: rest)))) rfl]
        exact hRPv (d + 1) iw (n2 + 1) _ (scanStops_cons _ _ (by decide)) (by omega)
      simp only [objLoop, hstr, hcolon, hval, hcomma0, hbrace]
      rw [insertIM_append obj k v hnotin]
    | cons p ps =>
      have stage1 : pre ++ (fmtMembers ((k, v) :: p :: ps) (d + 1) iw ++
          ('\x0a' :: (indentChars (d * iw) ++ ('\x7d' :: rest)))) =
          pre ++ (indentChars ((d + 1) * iw) ++ ('"' :: (escString k ++ ('"' :: (':' :: ' ' ::
            (fmtV v (d + 1) iw ++ (',' :: '\x0a' :: (fmtMembers (p :: ps) (d + 1) iw ++
              ('\x0a' :: (indentChars (d * iw) ++ ('\x7d' :: rest))))))))))) := by
        simp only [fmtMembers, List.append_assoc, List.cons_append]
      have hew : eat_whitespace (pre ++ (fmtMembers ((k, v) :: p :: ps) (d + 1) iw ++
          ('\x0a' :: (indentChars (d * iw) ++ ('\x7d' :: rest))))) =
          '"' :: (escString k ++ ('"' :: (':' :: ' ' ::
            (fmtV v (d + 1) iw ++ (',' :: '\x0a' :: (fmtMembers (p :: ps) (d + 1) iw ++
              ('\x0a' :: (indentChars (d * iw) ++ ('\x7d' :: rest))))))))) := by
        rw [stage1, eat_whitespace_allws_append pre _ hpre,
          eat_whitespace_allws_append _ _ (allWs_indent _),
          eat_whitespace_cons_nws _ _ (by decide)]
      have hstr : string (eat_whitespace (pre ++ (fmtMembers ((k, v) :: p :: ps) (d + 1) iw ++
          ('\x0a' :: (indentChars (d * iw) ++ ('\x7d' :: rest)))))) =
          .ok (.String k, ':' :: ' ' ::
            (fmtV v (d + 1) iw ++ (',' :: '\x0a' :: (fmtMembers (p :: ps) (d + 1) iw ++
              ('\x0a' :: (indentChars (d * iw) ++ ('\x7d' :: rest))))))) := by
        rw [hew]
        exact string_render k hk _
      have hcolon : stripChar ':' (eat_whitespace (':' :: ' ' ::
          (fmtV v (d + 1) iw ++ (',' :: '\x0a' :: (fmtMembers (p :: ps) (d + 1) iw ++
            ('\x0a' :: (indentChars (d * iw) ++ ('\x7d' :: rest)))))))) =
          some (' ' :: (fmtV v (d + 1) iw ++ (',' :: '\x0a' ::
            (fmtMembers (p :: ps) (d + 1) iw ++
              ('\x0a' :: (indentChars (d * iw) ++ ('\x7d' :: rest))))))) := by
        rw [eat_whitespace_cons_nws _ _ (by decide)]
        rfl
      have hval : value n1 (' ' :: (fmtV v (d + 1) iw ++ (',' :: '\x0a' ::
          (fmtMembers (p :: ps) (d + 1) iw ++
            ('\x0a' :: (indentChars (d * iw) ++ ('\x7d' :: rest))))))) =
          .ok (v, ',' :: '\x0a' :: (fmtMembers (p :: ps) (d + 1) iw ++
            ('\x0a' :: (indentChars (d * iw) ++ ('\x7d' :: rest))))) := by
        rw [hn1, value_succ_congr n2
          (' ' :: (fmtV v (d + 1) iw ++ (',' :: '\x0a' ::
            (fmtMembers (p :: ps) (d + 1) iw ++
              ('\x0a' :: (indentChars (d * iw) ++ ('\x7d' :: rest)))))))
          (fmtV v (d + 1) iw ++ (',' :: '\x0a' ::
            (fmtMembers (p :: ps) (d + 1) iw ++
              ('\x0a' :: (indentChars (d * iw) ++ ('\x7d' :: rest)))))) rfl]
        exact hRPv (d + 1) iw (n2 + 1) _ (scanStops_cons _ _ (by decide)) (by omega)
      have hcomma : stripChar ',' (eat_whitespace (',' :: '\x0a' ::
          (fmtMembers (p :: ps) (d + 1) iw ++
            ('\x0a' :: (indentChars (d * iw) ++ ('\x7d' :: rest)))))) =
          some ('\x0a' :: (fmtMembers (p :: ps) (d + 1) iw ++
            ('\x0a' :: (indentChars (d * iw) ++ ('\x7d' :: rest))))) := by
        rw [eat_whitespace_cons_nws _ _ (by decide)]
        rfl
      simp only [objLoop, hstr, hcolon, hval, hcomma]
      rw [insertIM_append obj k v hnotin]
      have hrec := ih (obj ++ [(k, v)]) n1 ['\x0a'] (by simp) (by decide)
        (fun q hq => hmem q (List.mem_cons_of_mem _ hq))
        (by rw [List.append_assoc]; exact hnd)
        (by omega)
      rw [show ('\x0a' :: (fmtMembers (p :: ps) (d + 1) iw ++
          ('\x0a' :: (indentChars (d * iw) ++ ('\x7d' :: rest)))) : List Char) =
          ['\x0a'] ++ (fmtMembers (p :: ps) (d + 1) iw ++
            ('\x0a' :: (indentChars (d * iw) ++ ('\x7d' :: rest)))) from rfl,
        hrec, List.append_assoc]
      rfl

/-! The element loop re-parses a rendered element list. -/

theorem arrLoop_render (iw d : Nat) (rest : List Char) (hrest : scanStops rest) :
    ∀ (vs acc : List Value) (n : Nat),
      (∀ v ∈ vs, RP v) →
      needFuelE vs ≤ n →
      arrLoop n acc
        (match vs with
          | [] => '\x0a' :: (indentChars (d * iw) ++ (']' :: rest))
          | _ :: _ => ',' :: '\x0a' :: (fmtElems vs (d + 1) iw ++
              ('\x0a' :: (indentChars (d * iw) ++ (']' :: rest))))) =
        .ok (.Array (acc ++ vs), rest) := by
  intro vs
  induction vs with
  | nil =>
    intro acc n hmem hfuel
    have hf1 : 1 ≤ n := hfuel
    obtain ⟨n1, rfl⟩ : ∃ n1, n = n1 + 1 := ⟨n - 1, by omega⟩
    have hewC : eat_whitespace ('\x0a' :: (indentChars (d * iw) ++ (']' :: rest))) =
        ']' :: rest := by
      rw [show ('\x0a' :: (indentChars (d * iw) ++ (']' :: rest)) : List Char) =
          ('\x0a' :: indentChars (d * iw)) ++ (']' :: rest) from rfl,
        eat_whitespace_allws_append _ _ (allWs_nl_indent _),
        eat_whitespace_cons_nws _ _ (by decide)]
    have hcomma : stripChar ',' (eat_whitespace
        ('\x0a' :: (indentChars (d * iw) ++ (']' :: rest)))) = none := by
      rw [hewC]; rfl
    have hbrack : stripChar ']' (eat_whitespace
        ('\x0a' :: (indentChars (d * iw) ++ (']' :: rest)))) = some rest := by
      rw [hewC]; rfl
    simp only [arrLoop, hcomma, hbrack, List.append_nil]
  | cons v vs' ih =>
    intro acc n hmem hfuel
    have hRPv : RP v := hmem v (List.mem_cons_self _ _)
    have hvpos := needFuel_pos v
    have hf1 : 1 + needFuel v + needFuelE vs' ≤ n := hfuel
    obtain ⟨n1, rfl⟩ : ∃ n1, n = n1 + 1 := ⟨n - 1, by omega⟩
    obtain ⟨n2, hn1⟩ : ∃ n2, n1 = n2 + 1 := ⟨n1 - 1, by omega⟩
    have hcomma : stripChar ',' (eat_whitespace (',' :: '\x0a' ::
        (fmtElems (v :: vs') (d + 1) iw ++
          ('\x0a' :: (indentChars (d * iw) ++ (']' :: rest)))))) =
        some ('\x0a' :: (fmtElems (v :: vs') (d + 1) iw ++
          ('\x0a' :: (indentChars (d * iw) ++ (']' :: rest))))) := by
      rw [eat_whitespace_cons_nws _ _ (by decide)]
      rfl
    cases vs' with
    | nil =>
      have hshape : ('\x0a' :: (fmtElems [v] (d + 1) iw ++
          ('\x0a' :: (indentChars (d * iw) ++ (']' :: rest)))) : List Char) =
          ('\x0a' :: indentChars ((d + 1) * iw)) ++ (fmtV v (d + 1) iw ++
            ('\x0a' :: (indentChars (d * iw) ++ (']' :: rest)))) := by
        simp only [fmtElems, List.append_assoc, List.cons_append]
      have hval : value n1 ('\x0a' :: (fmtElems [v] (d + 1) iw ++
          ('\x0a' :: (indentChars (d * iw) ++ (']' :: rest))))) =
          .ok (v, '\x0a' :: (indentChars (d * iw) ++ (']' :: rest))) := by
        rw [hn1, value_succ_congr n2
          ('\x0a' :: (fmtElems [v] (d + 1) iw ++
            ('\x0a' :: (indentChars (d * iw) ++ (']' :: rest)))))
          (fmtV v (d + 1) iw ++ ('\x0a' :: (indentChars (d * iw) ++ (']' :: rest))))
          (by rw [hshape, eat_whitespace_allws_append _ _ (allWs_nl_indent _)])]
        exact hRPv (d + 1) iw (n2 + 1) _ (scanStops_cons _ _ (by decide)) (by omega)
      simp only [arrLoop, hcomma, hval]
      have hrec : arrLoop n1 (acc ++ [v])
          ('\x0a' :: (indentChars (d * iw) ++ (']' :: rest))) =
          .ok (.Array ((acc ++ [v]) ++ []), rest) :=
        ih (acc ++ [v]) n1 (by intro x hx; simp at hx) (by omega)
      rw [List.append_nil] at hrec
      exact hrec
    | cons w ws =>
      have hshape : ('\x0a' :: (fmtElems (v :: w :: ws) (d + 1) iw ++
          ('\x0a' :: (indentChars (d * iw) ++ (']' :: rest)))) : List Char) =
          ('\x0a' :: indentChars ((d + 1) * iw)) ++ (fmtV v (d + 1) iw ++
            (',' :: '\x0a' :: (fmtElems (w :: ws) (d + 1) iw ++
              ('\x0a' :: (indentChars (d * iw) ++ (']' :: rest)))))) := by
        simp only [fmtElems, List.append_assoc, List.cons_append]
      have hval : value n1 ('\x0a' :: (fmtElems (v :: w :: ws) (d + 1) iw ++
          ('\x0a' :: (indentChars (d * iw) ++ (']' :: rest))))) =
          .ok (v, ',' :: '\x0a' :: (fmtElems (w :: ws) (d + 1) iw ++
            ('\x0a' :: (indentChars (d * iw) ++ (']' :: rest))))) := by
        rw [hn1, value_succ_congr n2
          ('\x0a' :: (fmtElems (v :: w :: ws) (d + 1) iw ++
            ('\x0a' :: (indentChars (d * iw) ++ (']' :: rest)))))
          (fmtV v (d + 1) iw ++ (',' :: '\x0a' :: (fmtElems (w :: ws) (d + 1) iw ++
            ('\x0a' :: (indentChars (d * iw) ++ (']' :: rest))))))
          (by rw [hshape, eat_whitespace_allws_append _ _ (allWs_nl_indent _)])]
        exact hRPv (d + 1) iw (n2 + 1) _ (scanStops_cons _ _ (by decide)) (by omega)
      simp only [arrLoop, hcomma, hval]
      have hrec : arrLoop n1 (acc ++ [v])
          (',' :: '\x0a' :: (fmtElems (w :: ws) (d + 1) iw ++
            ('\x0a' :: (indentChars (d * iw) ++ (']' :: rest))))) =
          .ok (.Array ((acc ++ [v]) ++ (w :: ws)), rest) :=
        ih (acc ++ [v]) n1 (fun x hx => hmem x (List.mem_cons_of_mem _ hx)) (by omega)
      rw [List.append_assoc] at hrec
      exact hrec

/-! Projections of the tree-wide conditions to members and elements. -/

theorem astr_obj (P : List Char → Prop) (m : List (List Char × Value)) :
    allStrs P (.Object m) ↔ allStrsP P m := Iff.rfl

theorem astr_arr (P : List Char → Prop) (vs : List Value) :
    allStrs P (.Array vs) ↔ allStrsL P vs := Iff.rfl

theorem astrP_cons (P : List Char → Prop) (k : List Char) (v : Value)
    (t : List (List Char × Value)) :
    allStrsP P ((k, v) :: t) ↔ P k ∧ allStrs P v ∧ allStrsP P t := Iff.rfl

theorem astrL_cons (P : List Char → Prop) (v : Value) (t : List Value) :
    allStrsL P (v :: t) ↔ allStrs P v ∧ allStrsL P t := Iff.rfl

theorem allStrsP_mem (P : List Char → Prop) :
    ∀ (ms : List (List Char × Value)), allStrsP P ms →
      ∀ p ∈ ms, P p.1 ∧ allStrs P p.2 := by
  intro ms
  induction ms with
  | nil => intro h p hp; simp at hp
  | cons q t ih =>
    obtain ⟨k0, v0⟩ := q
    intro h p hp
    obtain ⟨h1, h2, h3⟩ := (astrP_cons P k0 v0 t).mp h
    rcases List.mem_cons.mp hp with rfl | hm
    · exact ⟨h1, h2⟩
    · exact ih h3 p hm

theorem allStrsL_mem (P : List Char → Prop) :
    ∀ (vs : List Value), allStrsL P vs → ∀ v ∈ vs, allStrs P v := by
  intro vs
  induction vs with
  | nil => intro h v hv; simp at hv
  | cons w t ih =>
    intro h v hv
    obtain ⟨h1, h2⟩ := (astrL_cons P w t).mp h
    rcases List.mem_cons.mp hv with rfl | hm
    · exact h1
    · exact ih h2 v hm

theorem allNumsP_mem (P : Q → Prop) :
    ∀ (ms : List (List Char × Value)), allNumsP P ms →
      ∀ p ∈ ms, allNums P p.2 := by
  intro ms
  induction ms with
  | nil => intro h p hp; simp at hp
  | cons q t ih =>
    obtain ⟨k0, v0⟩ := q
    intro h p hp
    obtain ⟨h1, h2⟩ := (anumP_cons P k0 v0 t).mp h
    rcases List.mem_cons.mp hp with rfl | hm
    · exact h1
    · exact ih h2 p hm

theorem allNumsL_mem (P : Q → Prop) :
    ∀ (vs : List Value), allNumsL P vs → ∀ v ∈ vs, allNums P v := by
  intro vs
  induction vs with
  | nil => intro h v hv; simp at hv
  | cons w t ih =>
    intro h v hv
    obtain ⟨h1, h2⟩ := (anumL_cons P w t).mp h
    rcases List.mem_cons.mp hv with rfl | hm
    · exact h1
    · exact ih h2 v hm

theorem ukPairs_mem :
    ∀ (ms : List (List Char × Value)), ukPairs ms → ∀ p ∈ ms, uniqueKeys p.2 := by
  intro ms
  induction ms with
  | nil => intro h p hp; simp at hp
  | cons q t ih =>
    obtain ⟨k0, v0⟩ := q
    intro h p hp
    obtain ⟨h1, h2⟩ := (ukPairs_cons k0 v0 t).mp h
    rcases List.mem_cons.mp hp with rfl | hm
    · exact h1
    · exact ih h2 p hm

theorem ukList_mem :
    ∀ (vs : List Value), ukList vs → ∀ v ∈ vs, uniqueKeys v := by
  intro vs
  induction vs with
  | nil => intro h v hv; simp at hv
  | cons w t ih =>
    intro h v hv
    obtain ⟨h1, h2⟩ := (ukList_cons w t).mp h
    rcases List.mem_cons.mp hv with rfl | hm
    · exact h1
    · exact ih h2 v hm

theorem szP_mem :
    ∀ (ms : List (List Char × Value)), ∀ p ∈ ms, szV p.2 ≤ szP ms := by
  intro ms
  induction ms with
  | nil => intro p hp; simp at hp
  | cons q t ih =>
    obtain ⟨k0, v0⟩ := q
    intro p hp
    have hstep : szP ((k0, v0) :: t) = 1 + szV v0 + szP t := rfl
    rcases List.mem_cons.mp hp with rfl | hm
    · rw [hstep]
      show szV v0 ≤ 1 + szV v0 + szP t
      omega
    · have := ih p hm
      rw [hstep]; omega

theorem szE_mem :
    ∀ (vs : List Value), ∀ v ∈ vs, szV v ≤ szE vs := by
  intro vs
  induction vs with
  | nil => intro v hv; simp at hv
  | cons w t ih =>
    intro v hv
    have hstep : szE (w :: t) = 1 + szV w + szE t := rfl
    rcases List.mem_cons.mp hv with rfl | hm
    · rw [hstep]; omega
    · have := ih v hm
      rw [hstep]; omega

theorem fmtMembers_shape (k : List Char) (v : Value) (ms : List (List Char × Value))
    (dd iw : Nat) :
    ∃ S, fmtMembers ((k, v) :: ms) dd iw = indentChars (dd * iw) ++ ('"' :: S) := by
  cases ms with
  | nil => exact ⟨_, rfl⟩
  | cons p ps =>
    refine ⟨escString k ++ ('"' :: ':' :: ' ' :: (fmtV v dd iw ++
      (',' :: '\x0a' :: fmtMembers (p :: ps) dd iw))), ?_⟩
    simp only [fmtMembers, List.append_assoc, List.cons_append]

theorem fmtElems_shape (v : Value) (vs : List Value) (dd iw : Nat) :
    ∃ S, fmtElems (v :: vs) dd iw = indentChars (dd * iw) ++ (fmtV v dd iw ++ S) := by
  cases vs with
  | nil => exact ⟨[], by simp only [fmtElems, List.append_nil]⟩
  | cons w ws =>
    exact ⟨',' :: '\x0a' :: fmtElems (w :: ws) dd iw, by
      simp only [fmtElems, List.append_assoc]⟩

theorem szV_pos (v : Value) : 1 ≤ szV v := by
  cases v with
  | String s => exact Nat.le_refl 1
  | Number q => exact Nat.le_refl 1
  | Boolean b => exact Nat.le_refl 1
  | Null => exact Nat.le_refl 1
  | Object m =>
    show (1 : Nat) ≤ 1 + szP m
    omega
  | Array l =>
    show (1 : Nat) ≤ 1 + szE l
    omega

/-- Main induction: a tree with unique keys, round-trippable strings and
representable reduced numbers re-parses from its own rendering. -/
theorem RP_of_conds : ∀ N v, szV v ≤ N → uniqueKeys v → allStrs strOK v →
    allNums reducedQ v → allNums reprQ v → RP v := by
  intro N
  induction N with
  | zero =>
    intro v hsz
    exact absurd hsz (by have := szV_pos v; omega)
  | succ N ihN =>
    intro v hsz huk hstr hnum1 hnum2
    cases v with
    | String s =>
      intro d iw n rest hstop hfuel
      have h1 : 1 ≤ n := hfuel
      obtain ⟨n1, rfl⟩ : ∃ n1, n = n1 + 1 := ⟨n - 1, by omega⟩
      have hq : eat_whitespace (fmtV (.String s) d iw ++ rest) =
          '"' :: (escString s ++ ('"' :: rest)) := by
        rw [show fmtV (.String s) d iw ++ rest = '"' :: (escString s ++ ('"' :: rest)) from by
          simp only [fmtV, List.cons_append, List.append_assoc, List.nil_append]]
        exact eat_whitespace_cons_nws _ _ (by decide)
      rw [value_succ_quote n1 _ _ hq]
      exact string_render s hstr rest
    | Number q =>
      intro d iw n rest hstop hfuel
      have h1 : 1 ≤ n := hfuel
      obtain ⟨n1, rfl⟩ : ∃ n1, n = n1 + 1 := ⟨n - 1, by omega⟩
      obtain ⟨c, t, hfq, hc⟩ := fmtNum_head q
      have hshape : fmtV (.Number q) d iw ++ rest = c :: (t ++ rest) := by
        rw [show fmtV (.Number q) d iw = fmtNum q from rfl, hfq, List.cons_append]
      have hq : eat_whitespace (fmtV (.Number q) d iw ++ rest) = c :: (t ++ rest) := by
        rw [hshape]
        refine eat_whitespace_cons_nws _ _ ?_
        rcases hc with rfl | hdg
        · decide
        · exact (digit_facts c hdg).1
      have hd : c = '-' ∨ c.isDigit = true := by
        rcases hc with rfl | hdg
        · exact Or.inl rfl
        · exact Or.inr (isDigit_of_bounds c hdg)
      have hfacts : c ≠ 'f' ∧ c ≠ 'n' ∧ c ≠ 't' ∧ c ≠ '\x7b' ∧ c ≠ '[' ∧ c ≠ '"' := by
        rcases hc with rfl | hdg
        · exact ⟨by decide, by decide, by decide, by decide, by decide, by decide⟩
        · obtain ⟨_, _, hq2, hlb, hlk, _, _, _, hcf, hcn, hct⟩ := digit_facts c hdg
          exact ⟨hcf, hcn, hct, hlb, hlk, hq2⟩
      obtain ⟨h2, h3, h4, h5, h6, h7⟩ := hfacts
      rw [value_succ_num n1 _ c (t ++ rest) hq hd h2 h3 h4 h5 h6 h7,
        ← List.cons_append, ← hfq]
      exact number_render q hnum1 hnum2 rest hstop
    | Boolean b =>
      cases b with
      | true =>
        intro d iw n rest hstop hfuel
        have h1 : 1 ≤ n := hfuel
        obtain ⟨n1, rfl⟩ : ∃ n1, n = n1 + 1 := ⟨n - 1, by omega⟩
        exact value_succ_true n1 _ rest
          (eat_whitespace_cons_nws 't' ('r' :: 'u' :: 'e' :: rest) (by decide))
      | false =>
        intro d iw n rest hstop hfuel
        have h1 : 1 ≤ n := hfuel
        obtain ⟨n1, rfl⟩ : ∃ n1, n = n1 + 1 := ⟨n - 1, by omega⟩
        exact value_succ_false n1 _ rest
          (eat_whitespace_cons_nws 'f' ('a' :: 'l' :: 's' :: 'e' :: rest) (by decide))
    | Null =>
      intro d iw n rest hstop hfuel
      have h1 : 1 ≤ n := hfuel
      obtain ⟨n1, rfl⟩ : ∃ n1, n = n1 + 1 := ⟨n - 1, by omega⟩
      exact value_succ_null n1 _ rest
        (eat_whitespace_cons_nws 'n' ('u' :: 'l' :: 'l' :: rest) (by decide))
    | Object m =>
      cases m with
      | nil =>
        intro d iw n rest hstop hfuel
        have h2n : 2 ≤ n := hfuel
        obtain ⟨n1, rfl⟩ : ∃ n1, n = n1 + 1 := ⟨n - 1, by omega⟩
        obtain ⟨n2, hn1⟩ : ∃ n2, n1 = n2 + 1 := ⟨n1 - 1, by omega⟩
        have hq : eat_whitespace (fmtV (.Object []) d iw ++ rest) =
            '\x7b' :: ('\x7d' :: rest) :=
          eat_whitespace_cons_nws '\x7b' ('\x7d' :: rest) (by decide)
        rw [value_succ_lbrace n1 _ _ hq, hn1]
        have ha : stripChar '\x7b' (eat_whitespace ('\x7b' :: ('\x7d' :: rest))) =
            some ('\x7d' :: rest) := by
          rw [eat_whitespace_cons_nws _ _ (by decide)]
          rfl
        have hb : stripChar '\x7d' (eat_whitespace ('\x7d' :: rest)) = some rest := by
          rw [eat_whitespace_cons_nws _ _ (by decide)]
          rfl
        simp only [object, ha, hb]
      | cons p ps =>
        obtain ⟨k, v⟩ := p
        intro d iw n rest hstop hfuel
        have hfz : 2 + needFuelM ((k, v) :: ps) ≤ n := hfuel
        obtain ⟨n1, rfl⟩ : ∃ n1, n = n1 + 1 := ⟨n - 1, by omega⟩
        obtain ⟨n2, hn1⟩ : ∃ n2, n1 = n2 + 1 := ⟨n1 - 1, by omega⟩
        have hshape : fmtV (.Object ((k, v) :: ps)) d iw ++ rest =
            '\x7b' :: ('\x0a' :: (fmtMembers ((k, v) :: ps) (d + 1) iw ++
              ('\x0a' :: (indentChars (d * iw) ++ ('\x7d' :: rest))))) := by
          simp only [fmtV, List.append_assoc, List.cons_append, List.nil_append]
        have hq : eat_whitespace (fmtV (.Object ((k, v) :: ps)) d iw ++ rest) =
            '\x7b' :: ('\x0a' :: (fmtMembers ((k, v) :: ps) (d + 1) iw ++
              ('\x0a' :: (indentChars (d * iw) ++ ('\x7d' :: rest))))) := by
          rw [hshape]
          exact eat_whitespace_cons_nws _ _ (by decide)
        rw [value_succ_lbrace n1 _ _ hq, hn1]
        have ha : stripChar '\x7b' (eat_whitespace ('\x7b' :: ('\x0a' ::
            (fmtMembers ((k, v) :: ps) (d + 1) iw ++
              ('\x0a' :: (indentChars (d * iw) ++ ('\x7d' :: rest))))))) =
            some ('\x0a' :: (fmtMembers ((k, v) :: ps) (d + 1) iw ++
              ('\x0a' :: (indentChars (d * iw) ++ ('\x7d' :: rest))))) := by
          rw [eat_whitespace_cons_nws _ _ (by decide)]
          rfl
        obtain ⟨S, hA⟩ := fmtMembers_shape k v ps (d + 1) iw
        have hXew : eat_whitespace ('\x0a' :: (fmtMembers ((k, v) :: ps) (d + 1) iw ++
            ('\x0a' :: (indentChars (d * iw) ++ ('\x7d' :: rest))))) =
            '"' :: (S ++ ('\x0a' :: (indentChars (d * iw) ++ ('\x7d' :: rest)))) := by
          rw [hA, show ('\x0a' :: ((indentChars ((d + 1) * iw) ++ ('"' :: S)) ++
              ('\x0a' :: (indentChars (d * iw) ++ ('\x7d' :: rest)))) : List Char) =
              ('\x0a' :: indentChars ((d + 1) * iw)) ++
                ('"' :: (S ++ ('\x0a' :: (indentChars (d * iw) ++ ('\x7d' :: rest))))) from by
            simp only [List.append_assoc, List.cons_append],
            eat_whitespace_allws_append _ _ (allWs_nl_indent _),
            eat_whitespace_cons_nws _ _ (by decide)]
        have hb : stripChar '\x7d' (eat_whitespace ('\x0a' ::
            (fmtMembers ((k, v) :: ps) (d + 1) iw ++
              ('\x0a' :: (indentChars (d * iw) ++ ('\x7d' :: rest)))))) = none := by
          rw [hXew]
          rfl
        simp only [object, ha, hb]
        have hmemall : ∀ p ∈ (k, v) :: ps, strOK p.1 ∧ RP p.2 := by
          intro p hp
          have hst := allStrsP_mem strOK _ ((astr_obj strOK _).mp hstr) p hp
          have ha1 := allNumsP_mem reducedQ _ ((anum_obj reducedQ _).mp hnum1) p hp
          have ha2 := allNumsP_mem reprQ _ ((anum_obj reprQ _).mp hnum2) p hp
          have hu := ukPairs_mem _ ((uk_object _).mp huk).2 p hp
          have hs := szP_mem _ p hp
          refine ⟨hst.1, ihN p.2 ?_ hu hst.2 ha1 ha2⟩
          have hsv : szV (.Object ((k, v) :: ps)) = 1 + szP ((k, v) :: ps) := rfl
          omega
        have hrec := objLoop_render iw d rest hstop ((k, v) :: ps) [] n2 ['\x0a']
          (by simp) (by decide) hmemall
          (by rw [List.nil_append]; exact ((uk_object _).mp huk).1)
          (by omega)
        rw [show ('\x0a' :: (fmtMembers ((k, v) :: ps) (d + 1) iw ++
            ('\x0a' :: (indentChars (d * iw) ++ ('\x7d' :: rest)))) : List Char) =
            ['\x0a'] ++ (fmtMembers ((k, v) :: ps) (d + 1) iw ++
              ('\x0a' :: (indentChars (d * iw) ++ ('\x7d' :: rest)))) from rfl, hrec]
        rfl
    | Array l =>
      cases l with
      | nil =>
        intro d iw n rest hstop hfuel
        have h2n : 2 ≤ n := hfuel
        obtain ⟨n1, rfl⟩ : ∃ n1, n = n1 + 1 := ⟨n - 1, by omega⟩
        obtain ⟨n2, hn1⟩ : ∃ n2, n1 = n2 + 1 := ⟨n1 - 1, by omega⟩
        have hq : eat_whitespace (fmtV (.Array []) d iw ++ rest) = '[' :: (']' :: rest) :=
          eat_whitespace_cons_nws '[' (']' :: rest) (by decide)
        rw [value_succ_lbrack n1 _ _ hq, hn1]
        have ha : stripChar '[' (eat_whitespace ('[' :: (']' :: rest))) =
            some (']' :: rest) := by
          rw [eat_whitespace_cons_nws _ _ (by decide)]
          rfl
        have hb : stripChar ']' (eat_whitespace (']' :: rest)) = some rest := by
          rw [eat_whitespace_cons_nws _ _ (by decide)]
          rfl
        simp only [array, ha, hb]
      | cons v vs =>
        intro d iw n rest hstop hfuel
        have hfz : 2 + needFuel v + needFuelE vs ≤ n := hfuel
        obtain ⟨n1, rfl⟩ : ∃ n1, n = n1 + 1 := ⟨n - 1, by omega⟩
        obtain ⟨n2, hn1⟩ : ∃ n2, n1 = n2 + 1 := ⟨n1 - 1, by omega⟩
        have hvpos := needFuel_pos v
        obtain ⟨n3, hn2⟩ : ∃ n3, n2 = n3 + 1 := ⟨n2 - 1, by omega⟩
        have hmemE : ∀ x ∈ v :: vs, RP x := by
          intro x hx
          have hst := allStrsL_mem strOK _ ((astr_arr strOK _).mp hstr) x hx
          have ha1 := allNumsL_mem reducedQ _ ((anum_arr reducedQ _).mp hnum1) x hx
          have ha2 := allNumsL_mem reprQ _ ((anum_arr reprQ _).mp hnum2) x hx
          have hu := ukList_mem _ ((uk_array _).mp huk) x hx
          have hs := szE_mem _ x hx
          refine ihN x ?_ hu hst ha1 ha2
          have hsv : szV (.Array (v :: vs)) = 1 + szE (v :: vs) := rfl
          omega
        have hRPv : RP v := hmemE v (List.mem_cons_self _ _)
        have hshape : fmtV (.Array (v :: vs)) d iw ++ rest =
            '[' :: ('\x0a' :: (fmtElems (v :: vs) (d + 1) iw ++
              ('\x0a' :: (indentChars (d * iw) ++ (']' :: rest))))) := by
          simp only [fmtV, List.append_assoc, List.cons_append, List.nil_append]
        have hq : eat_whitespace (fmtV (.Array (v :: vs)) d iw ++ rest) =
            '[' :: ('\x0a' :: (fmtElems (v :: vs) (d + 1) iw ++
              ('\x0a' :: (indentChars (d * iw) ++ (']' :: rest))))) := by
          rw [hshape]
          exact eat_whitespace_cons_nws _ _ (by decide)
        rw [value_succ_lbrack n1 _ _ hq, hn1]
        have ha : stripChar '[' (eat_whitespace ('[' :: ('\x0a' ::
            (fmtElems (v :: vs) (d + 1) iw ++
              ('\x0a' :: (indentChars (d * iw) ++ (']' :: rest))))))) =
            some ('\x0a' :: (fmtElems (v :: vs) (d + 1) iw ++
              ('\x0a' :: (indentChars (d * iw) ++ (']' :: rest))))) := by
          rw [eat_whitespace_cons_nws _ _ (by decide)]
          rfl
        obtain ⟨c, tc, hcv, hcw, hcrb, hcrc, hccm⟩ := fmtV_head v (d + 1) iw
        cases vs with
        | nil =>
          have hsh2 : ('\x0a' :: (fmtElems [v] (d + 1) iw ++
              ('\x0a' :: (indentChars (d * iw) ++ (']' :: rest)))) : List Char) =
              ('\x0a' :: indentChars ((d + 1) * iw)) ++ (fmtV v (d + 1) iw ++
                ('\x0a' :: (indentChars (d * iw) ++ (']' :: rest)))) := by
            simp only [fmtElems, List.append_assoc, List.cons_append]
          have hXew : eat_whitespace ('\x0a' :: (fmtElems [v] (d + 1) iw ++
              ('\x0a' :: (indentChars (d * iw) ++ (']' :: rest))))) =
              c :: (tc ++ ('\x0a' :: (indentChars (d * iw) ++ (']' :: rest)))) := by
            rw [hsh2, eat_whitespace_allws_append _ _ (allWs_nl_indent _), hcv,
              List.cons_append, eat_whitespace_cons_nws _ _ hcw]
          have hbrk : stripChar ']' (eat_whitespace ('\x0a' :: (fmtElems [v] (d + 1) iw ++
              ('\x0a' :: (indentChars (d * iw) ++ (']' :: rest)))))) = none := by
            rw [hXew]
            simp only [stripChar, if_neg hcrb]
          have hval : value n2 ('\x0a' :: (fmtElems [v] (d + 1) iw ++
              ('\x0a' :: (indentChars (d * iw) ++ (']' :: rest))))) =
              .ok (v, '\x0a' :: (indentChars (d * iw) ++ (']' :: rest))) := by
            rw [hn2, value_succ_congr n3
              ('\x0a' :: (fmtElems [v] (d + 1) iw ++
                ('\x0a' :: (indentChars (d * iw) ++ (']' :: rest)))))
              (fmtV v (d + 1) iw ++ ('\x0a' :: (indentChars (d * iw) ++ (']' :: rest))))
              (by rw [hsh2, eat_whitespace_allws_append _ _ (allWs_nl_indent _)])]
            exact hRPv (d + 1) iw (n3 + 1) _ (scanStops_cons _ _ (by decide)) (by omega)
          simp only [array, ha, hbrk, hval]
          have hrec : arrLoop n2 [v] ('\x0a' :: (indentChars (d * iw) ++ (']' :: rest))) =
              .ok (.Array ([v] ++ []), rest) :=
            arrLoop_render iw d rest hstop [] [v] n2 (by intro x hx; simp at hx) (by omega)
          rw [List.append_nil] at hrec
          exact hrec
        | cons w ws =>
          have hsh2 : ('\x0a' :: (fmtElems (v :: w :: ws) (d + 1) iw ++
              ('\x0a' :: (indentChars (d * iw) ++ (']' :: rest)))) : List Char) =
              ('\x0a' :: indentChars ((d + 1) * iw)) ++ (fmtV v (d + 1) iw ++
                (',' :: '\x0a' :: (fmtElems (w :: ws) (d + 1) iw ++
                  ('\x0a' :: (indentChars (d * iw) ++ (']' :: rest)))))) := by
            simp only [fmtElems, List.append_assoc, List.cons_append]
          have hXew : eat_whitespace ('\x0a' :: (fmtElems (v :: w :: ws) (d + 1) iw ++
              ('\x0a' :: (indentChars (d * iw) ++ (']' :: rest))))) =
              c :: (tc ++ (',' :: '\x0a' :: (fmtElems (w :: ws) (d + 1) iw ++
                ('\x0a' :: (indentChars (d * iw) ++ (']' :: rest)))))) := by
            rw [hsh2, eat_whitespace_allws_append _ _ (allWs_nl_indent _), hcv,
              List.cons_append, eat_whitespace_cons_nws _ _ hcw]
          have hbrk : stripChar ']' (eat_whitespace ('\x0a' ::
              (fmtElems (v :: w :: ws) (d + 1) iw ++
                ('\x0a' :: (indentChars (d * iw) ++ (']' :: rest)))))) = none := by
            rw [hXew]
            simp only [stripChar, if_neg hcrb]
          have hval : value n2 ('\x0a' :: (fmtElems (v :: w :: ws) (d + 1) iw ++
              ('\x0a' :: (indentChars (d * iw) ++ (']' :: rest))))) =
              .ok (v, ',' :: '\x0a' :: (fmtElems (w :: ws) (d + 1) iw ++
                ('\x0a' :: (indentChars (d * iw) ++ (']' :: rest))))) := by
            rw [hn2, value_succ_congr n3
              ('\x0a' :: (fmtElems (v :: w :: ws) (d + 1) iw ++
                ('\x0a' :: (indentChars (d * iw) ++ (']' :: rest)))))
              (fmtV v (d + 1) iw ++ (',' :: '\x0a' :: (fmtElems (w :: ws) (d + 1) iw ++
                ('\x0a' :: (indentChars (d * iw) ++ (']' :: rest))))))
              (by rw [hsh2, eat_whitespace_allws_append _ _ (allWs_nl_indent _)])]
            exact hRPv (d + 1) iw (n3 + 1) _ (scanStops_cons _ _ (by decide)) (by omega)
          simp only [array, ha, hbrk, hval]
          have hrec : arrLoop n2 [v] (',' :: '\x0a' :: (fmtElems (w :: ws) (d + 1) iw ++
              ('\x0a' :: (indentChars (d * iw) ++ (']' :: rest))))) =
              .ok (.Array ([v] ++ (w :: ws)), rest) :=
            arrLoop_render iw d rest hstop (w :: ws) [v] n2
              (fun x hx => hmemE x (List.mem_cons_of_mem _ hx)) (by omega)
          exact hrec

/-! Fuel bounds: the rendering is long enough that `parseFuel` suffices. -/

theorem needFuelM_le (d iw : Nat) :
    ∀ ms : List (List Char × Value),
      (∀ p ∈ ms, needFuel p.2 ≤ (fmtV p.2 d iw).length) →
      needFuelM ms ≤ (fmtMembers ms d iw).length + 2 := by
  intro ms
  induction ms with
  | nil =>
    intro h
    show (1 : Nat) ≤ ([] : List Char).length + 2
    simp
  | cons kv t ih =>
    obtain ⟨k, v⟩ := kv
    intro h
    have hv : needFuel v ≤ (fmtV v d iw).length := h (k, v) (List.mem_cons_self _ _)
    have ht := ih (fun p hp => h p (List.mem_cons_of_mem _ hp))
    have e1 : needFuelM ((k, v) :: t) = 1 + needFuel v + needFuelM t := rfl
    cases t with
    | nil =>
      have e2 : (fmtMembers [(k, v)] d iw).length =
          (indentChars (d * iw)).length + (escString k).length + 4 +
            (fmtV v d iw).length := by
        simp only [fmtMembers, List.length_append, List.length_cons]
        omega
      have e3 : needFuelM ([] : List (List Char × Value)) = 1 := rfl
      omega
    | cons p ps =>
      have e2 : (fmtMembers ((k, v) :: p :: ps) d iw).length =
          (indentChars (d * iw)).length + (escString k).length + 6 +
            (fmtV v d iw).length + (fmtMembers (p :: ps) d iw).length := by
        simp only [fmtMembers, List.length_append, List.length_cons]
        omega
      omega

theorem needFuelE_le (d iw : Nat) :
    ∀ vs : List Value,
      (∀ v ∈ vs, needFuel v ≤ (fmtV v d iw).length) →
      needFuelE vs ≤ (fmtElems vs d iw).length + 2 := by
  intro vs
  induction vs with
  | nil =>
    intro h
    show (1 : Nat) ≤ ([] : List Char).length + 2
    simp
  | cons v t ih =>
    intro h
    have hv : needFuel v ≤ (fmtV v d iw).length := h v (List.mem_cons_self _ _)
    have ht := ih (fun x hx => h x (List.mem_cons_of_mem _ hx))
    have e1 : needFuelE (v :: t) = 1 + needFuel v + needFuelE t := rfl
    cases t with
    | nil =>
      have e2 : (fmtElems [v] d iw).length =
          (indentChars (d * iw)).length + (fmtV v d iw).length := by
        simp only [fmtElems, List.length_append]
      have e3 : needFuelE ([] : List Value) = 1 := rfl
      omega
    | cons w ws =>
      have e2 : (fmtElems (v :: w :: ws) d iw).length =
          (indentChars (d * iw)).length + (fmtV v d iw).length + 2 +
            (fmtElems (w :: ws) d iw).length := by
        simp only [fmtElems, List.length_append, List.length_cons]
        omega
      omega

theorem needFuel_le : ∀ N v, szV v ≤ N → ∀ d iw,
    needFuel v ≤ (fmtV v d iw).length := by
  intro N
  induction N with
  | zero =>
    intro v hsz
    exact absurd hsz (by have := szV_pos v; omega)
  | succ N ihN =>
    intro v hsz d iw
    cases v with
    | String s =>
      show 1 ≤ ('"' :: (escString s ++ ['"'])).length
      simp
    | Number q =>
      obtain ⟨c, t, hf, _⟩ := fmtNum_head q
      show 1 ≤ (fmtNum q).length
      rw [hf]
      simp
    | Boolean b =>
      cases b with
      | true =>
        show (1 : Nat) ≤ (("true").toList).length
        decide
      | false =>
        show (1 : Nat) ≤ (("false").toList).length
        decide
    | Null =>
      show (1 : Nat) ≤ (("null").toList).length
      decide
    | Object m =>
      cases m with
      | nil =>
        show (2 : Nat) ≤ (['\x7b', '\x7d'] : List Char).length
        decide
      | cons p ps =>
        have hM := needFuelM_le (d + 1) iw (p :: ps) (fun q hq => by
          have hs := szP_mem (p :: ps) q hq
          have hsv : szV (.Object (p :: ps)) = 1 + szP (p :: ps) := rfl
          exact ihN q.2 (by omega) (d + 1) iw)
        have e1 : needFuel (.Object (p :: ps)) = 2 + needFuelM (p :: ps) := rfl
        have e2 : (fmtV (.Object (p :: ps)) d iw).length =
            (fmtMembers (p :: ps) (d + 1) iw).length +
              (indentChars (d * iw)).length + 4 := by
          simp only [fmtV, List.length_cons, List.length_append, List.length_nil]
          omega
        omega
    | Array l =>
      cases l with
      | nil =>
        show (2 : Nat) ≤ (['[', ']'] : List Char).length
        decide
      | cons v vs =>
        have hv : needFuel v ≤ (fmtV v (d + 1) iw).length := by
          have hsv : szV (.Array (v :: vs)) = 1 + szE (v :: vs) := rfl
          have hs := szE_mem (v :: vs) v (List.mem_cons_self _ _)
          exact ihN v (by omega) (d + 1) iw
        have e1 : needFuel (.Array (v :: vs)) = 2 + needFuel v + needFuelE vs := rfl
        have e2 : (fmtV (.Array (v :: vs)) d iw).length =
            (fmtElems (v :: vs) (d + 1) iw).length +
              (indentChars (d * iw)).length + 4 := by
          simp only [fmtV, List.length_cons, List.length_append, List.length_nil]
          omega
        cases vs with
        | nil =>
          have e4 : (fmtElems [v] (d + 1) iw).length =
              (indentChars ((d + 1) * iw)).length + (fmtV v (d + 1) iw).length := by
            simp only [fmtElems, List.length_append]
          have e5 : needFuelE ([] : List Value) = 1 := rfl
          omega
        | cons w ws =>
          have hE := needFuelE_le (d + 1) iw (w :: ws) (fun x hx => by
            have hs := szE_mem (v :: w :: ws) x (List.mem_cons_of_mem _ hx)
            have hsv : szV (.Array (v :: w :: ws)) = 1 + szE (v :: w :: ws) := rfl
            exact ihN x (by omega) (d + 1) iw)
          have e4 : (fmtElems (v :: w :: ws) (d + 1) iw).length =
              (indentChars ((d + 1) * iw)).length + (fmtV v (d + 1) iw).length + 2 +
                (fmtElems (w :: ws) (d + 1) iw).length := by
            simp only [fmtElems, List.length_append, List.length_cons]
            omega
          omega

/-- The rendering of a well-conditioned tree parses back to the tree through
the public entry point. -/
theorem parse_render (v : Value) (huk : uniqueKeys v) (hstr : allStrs strOK v)
    (hn1 : allNums reducedQ v) (hn2 : allNums reprQ v) :
    parse (fmtV v 0 2) = .ok v := by
  have hrp := RP_of_conds (szV v) v le_rfl huk hstr hn1 hn2
  have hfl := needFuel_le (szV v) v le_rfl 0 2
  have hv : value (parseFuel (fmtV v 0 2)) (fmtV v 0 2 ++ []) = .ok (v, []) :=
    hrp 0 2 (parseFuel (fmtV v 0 2)) [] (show scanStops [] from trivial)
      (by rw [parseFuel]; omega)
  rw [List.append_nil] at hv
  simp only [parse, hv]
  rfl

set_option maxRecDepth 8000 in
/-- Claim C2 counterexample: the round trip is not unconditional.  The input
encoding a one-space string through the \u0020 escape parses to String " ";
the formatter re-emits the space raw, and re-parsing the rendering takes the
empty-string fast path (which eats whitespace before looking for a closing
quote), returning String "" instead of the original one-space string. -/
theorem roundtrip_fails_on_space_string :
    parse (("\"\\u0020\"").toList) = .ok (.String [' ']) ∧
    format (("\"\\u0020\"").toList) = .ok (("\" \"").toList) ∧
    parse (("\" \"").toList) = .ok (.String []) ∧
    Value.String ([] : List Char) ≠ .String [' '] := by
  refine ⟨rfl, rfl, rfl, ?_⟩
  simp

/-- Claim C2 (corrected): parse-format-parse is the identity on the parsed
tree, under the two side conditions the code actually needs: every number in
the tree is representable (its exact denominator divides a power of ten, as
every double printed in decimal is), and no string value or object key is a
nonempty all-space string (those, producible only through \u0020 escapes,
collapse to the empty string on re-parse via the fast path, refuting the
unconditional claim).  The formatter is modelled from the spec since
src/generate.rs is absent; format renders the parsed tree with indent width
two, and re-parsing that rendering returns the same tree. -/
theorem parse_format_parse_roundtrip (input : List Char) (v : Value)
    (hp : parse input = .ok v) (hnum : allNums reprQ v) (hstr : allStrs strOK v) :
    format input = .ok (fmtV v 0 2) ∧ parse (fmtV v 0 2) = .ok v := by
  have hex : ∃ rest, value (parseFuel input) input = .ok (v, rest) := by
    simp only [parse] at hp
    split at hp
    · rename_i v0 rest0 heq
      split at hp
      · simp only [PResult.ok.injEq] at hp
        subst hp
        exact ⟨rest0, heq⟩
      · exact absurd hp (by simp)
    · exact absurd hp (by simp)
    · exact absurd hp (by simp)
    · exact absurd hp (by simp)
  obtain ⟨rest, hval⟩ := hex
  have huk : uniqueKeys v := (parserUK (parseFuel input)).1 input v rest hval
  have hred : allNums reducedQ v := (parserNum (parseFuel input)).1 input v rest hval
  refine ⟨?_, parse_render v huk hstr hred hnum⟩
  simp only [format, hp]

theorem parse_format_parse_roundtrip_witness :
    parse (("1").toList) = .ok (.Number ⟨1, 1⟩) ∧
    allNums reprQ (.Number ⟨1, 1⟩) ∧
    allStrs strOK (.Number ⟨1, 1⟩) ∧
    (format (("1").toList) = .ok (fmtV (.Number ⟨1, 1⟩) 0 2) ∧
      parse (fmtV (.Number ⟨1, 1⟩) 0 2) = .ok (.Number ⟨1, 1⟩)) :=
  ⟨rfl, (by decide : (1 : Nat) ∣ 10 ^ 1), True.intro,
    parse_format_parse_roundtrip (("1").toList) (.Number ⟨1, 1⟩) rfl
      (by decide : (1 : Nat) ∣ 10 ^ 1) True.intro⟩

end RJ
